import Mathlib

/-!
Shallow embedding of the `treestruct` library (src/treestruct/__init__.py and
src/treestruct/helpers.py).

Nodes are identified by natural-number ids allocated from a counter; the heap of
`Node` objects is a `Graph` record.  A `NodeSet` with direction `FORWARD` on node
`n` (its `children.items`) is represented by the child edges `(n, m) ∈ childEdges`;
a `NodeSet` with direction `BACKWARD` (its `parents.items`) by `(n, m) ∈ parentEdges`.
The two edge relations are kept separate precisely because the library's
bidirectional-consistency invariant is the statement that they mirror each other.

Python set iteration order is unspecified; we model it by iterating node sets in
ascending id order (`Finset.sort`).  Recursions of the source that walk the heap
(`_traverse`, `clone_subtree`, `_convert`) are modelled with explicit fuel, with
sufficiency lemmas playing the role of termination.
-/

def FORWARD : Int := 1

def BACKWARD : Int := -1

/-- Python `direction or default` for an optional direction (`None` and `0` are
falsy; any other int is returned as is). -/
def pyOr (o : Option Int) (dflt : Int) : Int :=
  match o with
  | none => dflt
  | some d => if d = 0 then dflt else d

/-- The heap of `Node` objects.  `(a, b) ∈ childEdges` means `b ∈ a.children.items`;
`(a, b) ∈ parentEdges` means `b ∈ a.parents.items`.  `dataMap` gives each node's
payload; `nextId` is the allocation counter. -/
structure Graph where
  nextId : Nat
  childEdges : Finset (Nat × Nat)
  parentEdges : Finset (Nat × Nat)
  dataMap : Nat → Int

def initGraph : Graph := ⟨0, ∅, ∅, fun _ => 0⟩

/-- `Node.direction`: parents if the direction equals `BACKWARD`, else children.
This returns the `items` of the selected `NodeSet` of node `n`. -/
def Graph.dirItems (g : Graph) (d : Int) (n : Nat) : Finset Nat :=
  if d = BACKWARD then (g.parentEdges.filter (fun e => e.1 = n)).image Prod.snd
  else (g.childEdges.filter (fun e => e.1 = n)).image Prod.snd

/-- Raw insertion into the underlying `items` of the `NodeSet` of `owner` with
direction `d` (Python `items.add`). -/
def Graph.insertDir (g : Graph) (d : Int) (owner value : Nat) : Graph :=
  if d = BACKWARD then { g with parentEdges := insert (owner, value) g.parentEdges }
  else { g with childEdges := insert (owner, value) g.childEdges }

/-- Raw removal from the underlying `items` (Python `items.discard`). -/
def Graph.eraseDir (g : Graph) (d : Int) (owner value : Nat) : Graph :=
  if d = BACKWARD then { g with parentEdges := g.parentEdges.erase (owner, value) }
  else { g with childEdges := g.childEdges.erase (owner, value) }

/-- `NodeSet.add` on the `NodeSet` of `owner` with direction `d`: if `value` is not
already a member, first add `owner` to `value.direction(d * -1).items`, then add
`value` to this set's items. -/
def nsAdd (g : Graph) (owner : Nat) (d : Int) (value : Nat) : Graph :=
  let g1 := if value ∈ g.dirItems d owner then g else g.insertDir (d * -1) value owner
  g1.insertDir d owner value

/-- `NodeSet.discard`: if `value` is a member, first discard `owner` from
`value.direction(d * -1).items`, then discard `value` from this set's items. -/
def nsDiscard (g : Graph) (owner : Nat) (d : Int) (value : Nat) : Graph :=
  let g1 := if value ∈ g.dirItems d owner then g.eraseDir (d * -1) value owner else g
  g1.eraseDir d owner value

/-- `NodeSet.update`: repeated `add` (eager `map(self.add, s)`). -/
def nsUpdate (g : Graph) (owner : Nat) (d : Int) (values : List Nat) : Graph :=
  values.foldl (fun h v => nsAdd h owner d v) g

/-- `NodeSet.discard_many`: repeated `discard`. -/
def nsDiscardMany (g : Graph) (owner : Nat) (d : Int) (values : List Nat) : Graph :=
  values.foldl (fun h v => nsDiscard h owner d v) g

/-- `Node.__init__(data, parents, children)`: allocate a fresh id, set its payload,
then populate the parents `NodeSet` and afterwards the children `NodeSet` via
`update` (each a sequence of `NodeSet.add` calls). -/
def newNode (g : Graph) (data : Int) (ps cs : List Nat) : Graph × Nat :=
  let id := g.nextId
  let g0 : Graph :=
    { nextId := id + 1
      childEdges := g.childEdges
      parentEdges := g.parentEdges
      dataMap := fun m => if m = id then data else g.dataMap m }
  (nsUpdate (nsUpdate g0 id BACKWARD ps) id FORWARD cs, id)

/-- The public edge-set mutations of the library. -/
inductive Op where
  | add (owner : Nat) (parentSet : Bool) (value : Nat)
  | discard (owner : Nat) (parentSet : Bool) (value : Nat)
  | update (owner : Nat) (parentSet : Bool) (values : List Nat)
  | discardMany (owner : Nat) (parentSet : Bool) (values : List Nat)
  | construct (data : Int) (ps cs : List Nat)

/-- Direction of the `parents` (`true`) or `children` (`false`) `NodeSet`. -/
def dirOfSet (parentSet : Bool) : Int := if parentSet then BACKWARD else FORWARD

def applyOp (g : Graph) : Op → Graph
  | .add o b v => nsAdd g o (dirOfSet b) v
  | .discard o b v => nsDiscard g o (dirOfSet b) v
  | .update o b vs => nsUpdate g o (dirOfSet b) vs
  | .discardMany o b vs => nsDiscardMany g o (dirOfSet b) vs
  | .construct dt ps cs => (newNode g dt ps cs).1

def applyOps (g : Graph) (ops : List Op) : Graph := ops.foldl applyOp g

/-- Bidirectional consistency: `B ∈ A.children.items` iff `A ∈ B.parents.items`. -/
def Bidir (g : Graph) : Prop :=
  ∀ a b : Nat, (a, b) ∈ g.childEdges ↔ (b, a) ∈ g.parentEdges

/-- All edge endpoints are allocated ids (true of every heap the library builds). -/
def Bounded (g : Graph) : Prop :=
  (∀ e ∈ g.childEdges, e.1 < g.nextId ∧ e.2 < g.nextId) ∧
  (∀ e ∈ g.parentEdges, e.1 < g.nextId ∧ e.2 < g.nextId)

instance (g : Graph) : Decidable (Bounded g) :=
  decidable_of_iff
    ((∀ e ∈ g.childEdges, e.1 < g.nextId ∧ e.2 < g.nextId) ∧
      (∀ e ∈ g.parentEdges, e.1 < g.nextId ∧ e.2 < g.nextId)) Iff.rfl

theorem mem_dirItems (g : Graph) (d : Int) (n m : Nat) :
    m ∈ g.dirItems d n ↔
      (n, m) ∈ (if d = BACKWARD then g.parentEdges else g.childEdges) := by
  unfold Graph.dirItems
  by_cases h : d = BACKWARD <;>
    simp only [h, if_true, if_false, Finset.mem_image, Finset.mem_filter] <;>
    constructor
  · rintro ⟨⟨x, y⟩, ⟨hmem, hx⟩, hy⟩; subst hx; subst hy; simpa using hmem
  · intro hmem; exact ⟨(n, m), ⟨hmem, rfl⟩, rfl⟩
  · rintro ⟨⟨x, y⟩, ⟨hmem, hx⟩, hy⟩; subst hx; subst hy; simpa using hmem
  · intro hmem; exact ⟨(n, m), ⟨hmem, rfl⟩, rfl⟩


/-- The elements of a finite set of ids in ascending order (our model of Python
set iteration order), computed so that it evaluates by kernel reduction. -/
def sortedList (s : Finset Nat) : List Nat :=
  (List.range (s.sup id + 1)).filter (fun x => x ∈ s)

theorem mem_sortedList (s : Finset Nat) (x : Nat) : x ∈ sortedList s ↔ x ∈ s := by
  unfold sortedList
  simp only [List.mem_filter, List.mem_range, decide_eq_true_eq]
  constructor
  · exact fun h => h.2
  · intro h
    refine ⟨?_, h⟩
    have h2 : id x ≤ s.sup id := Finset.le_sup h
    simp only [id] at h2
    omega

theorem sortedList_nodup (s : Finset Nat) : (sortedList s).Nodup :=
  (List.nodup_range _).filter _

theorem sortedList_toFinset (s : Finset Nat) : (sortedList s).toFinset = s := by
  ext x
  rw [List.mem_toFinset, mem_sortedList]

theorem length_sortedList (s : Finset Nat) : (sortedList s).length = s.card := by
  have h1 := List.toFinset_card_of_nodup (sortedList_nodup s)
  rw [sortedList_toFinset] at h1
  omega

theorem sortedList_sorted (s : Finset Nat) : (sortedList s).Sorted (· < ·) := by
  unfold sortedList
  exact (List.sorted_lt_range _).filter _

/-! ## Traversal (`helpers._traverse`) -/

/-- `NodeSet.one(raise_on_empty)`: error on an empty set when requested, error on
more than one member, else the sole member (or `none` when empty). -/
def nsOne (s : Finset Nat) (raiseOnEmpty : Bool) : Except String (Option Nat) :=
  if s = ∅ ∧ raiseOnEmpty then .error "Called NodeSet.one on empty set"
  else if 1 < s.card then .error "Called NodeSet.one on set with multiple values"
  else .ok (sortedList s).head?

/-- Every id that occurs as an endpoint of some edge. -/
def Graph.endpoints (g : Graph) : Finset Nat :=
  g.childEdges.image Prod.fst ∪ g.childEdges.image Prod.snd ∪
    g.parentEdges.image Prod.fst ∪ g.parentEdges.image Prod.snd

/-- `struct.pop(-1)` when `popLast`, else `struct.pop(0)`; `none` when empty. -/
def popAt (popLast : Bool) (l : List Nat) : Option (Nat × List Nat) :=
  if popLast then
    match l.getLast? with
    | none => none
    | some n => some (n, l.dropLast)
  else
    match l with
    | [] => none
    | n :: rest => some (n, rest)

/-- `helpers._traverse` with the list-building callback (`flatten` and the
node-collecting queries instantiate the callback with "append the node"): pop at
one end, skip if visited, else mark visited, extend `struct` with the popped
node's neighbours in direction `d`, and record the node.  `fuel` bounds the
number of loop iterations; `none` means the fuel ran out. -/
def traverseFuel (g : Graph) (d : Int) (popLast : Bool) :
    Nat → Finset Nat → List Nat → Option (List Nat)
  | 0, _, struct =>
    match popAt popLast struct with
    | none => some []
    | some _ => none
  | fuel + 1, visited, struct =>
    match popAt popLast struct with
    | none => some []
    | some (n, rest) =>
      if n ∈ visited then traverseFuel g d popLast fuel visited rest
      else
        (traverseFuel g d popLast fuel (insert n visited)
          (rest ++ sortedList (g.dirItems d n))).map (n :: ·)

theorem mem_of_getLast?_eq {l : List Nat} {n : Nat} (h : l.getLast? = some n) :
    n ∈ l := by
  cases l with
  | nil => simp at h
  | cons a as =>
    have hmem := List.getLast_mem (show a :: as ≠ [] by simp)
    rw [List.getLast?_eq_getLast (a :: as) (by simp)] at h
    simp only [Option.some.injEq] at h
    rwa [h] at hmem

theorem popAt_none (popLast : Bool) (l : List Nat) :
    popAt popLast l = none ↔ l = [] := by
  unfold popAt
  cases popLast <;> cases l <;> simp
  · rename_i a as
    rw [List.getLast?_eq_getLast (a :: as) (by simp)]
    simp

theorem popAt_some {popLast : Bool} {l : List Nat} {n : Nat} {rest : List Nat}
    (h : popAt popLast l = some (n, rest)) :
    n ∈ l ∧ rest.length + 1 = l.length ∧ ∀ x ∈ rest, x ∈ l := by
  unfold popAt at h
  cases popLast <;> simp only [if_true, if_false, Bool.false_eq_true] at h
  · cases l with
    | nil => simp at h
    | cons a as =>
      simp only [Option.some.injEq, Prod.mk.injEq] at h
      obtain ⟨h1, h2⟩ := h
      subst h1; subst h2
      exact ⟨by simp, by simp, fun x hx => by simp [hx]⟩
  · cases hl : l.getLast? with
    | none => rw [hl] at h; simp at h
    | some m =>
      rw [hl] at h
      simp only [Option.some.injEq, Prod.mk.injEq] at h
      obtain ⟨h1, h2⟩ := h
      subst h1; subst h2
      have hne : l ≠ [] := by
        intro he; subst he; simp at hl
      refine ⟨mem_of_getLast?_eq hl, ?_, fun x hx => List.dropLast_subset l hx⟩
      have := List.length_dropLast l
      have hpos : 0 < l.length := List.length_pos.mpr hne
      omega

theorem traverseFuel_nil (g : Graph) (d : Int) (pl : Bool) (f : Nat)
    (visited : Finset Nat) (struct : List Nat) (h : popAt pl struct = none) :
    traverseFuel g d pl f visited struct = some [] := by
  cases f <;> rw [traverseFuel] <;> rw [h]

theorem traverseFuel_isSome (g : Graph) (d : Int) (pl : Bool) (U : Finset Nat)
    (hU : ∀ m, g.dirItems d m ⊆ U) :
    ∀ (fuel : Nat) (visited : Finset Nat) (struct : List Nat),
      (∀ x ∈ struct, x ∈ U) →
      (U \ visited).card * (U.card + 1) + struct.length ≤ fuel →
      (traverseFuel g d pl fuel visited struct).isSome := by
  intro fuel
  induction fuel with
  | zero =>
    intro visited struct hs hpot
    have hlen : struct.length = 0 := by omega
    have hnil : struct = [] := List.length_eq_zero.mp hlen
    subst hnil
    rw [traverseFuel]
    simp [popAt]
  | succ f ih =>
    intro visited struct hs hpot
    rw [traverseFuel]
    cases hpop : popAt pl struct with
    | none => simp
    | some p =>
      obtain ⟨n, rest⟩ := p
      obtain ⟨hmem, hlen, hrest⟩ := popAt_some hpop
      by_cases hv : n ∈ visited
      · simp only [hv, if_true]
        exact ih visited rest (fun x hx => hs x (hrest x hx)) (by omega)
      · simp only [hv, if_false]
        have hnU : n ∈ U := hs n hmem
        have hmemdiff : n ∈ U \ visited := by rw [Finset.mem_sdiff]; exact ⟨hnU, hv⟩
        have hcard : (U \ insert n visited).card + 1 = (U \ visited).card := by
          rw [Finset.sdiff_insert, Finset.card_erase_of_mem hmemdiff]
          have hpos : 0 < (U \ visited).card := Finset.card_pos.mpr ⟨n, hmemdiff⟩
          omega
        have hrec := ih (insert n visited) (rest ++ sortedList (g.dirItems d n))
          (by
            intro x hx
            rcases List.mem_append.mp hx with h | h
            · exact hs x (hrest x h)
            · exact hU n (by rwa [mem_sortedList] at h))
          (by
            rw [List.length_append, length_sortedList]
            have hc : (g.dirItems d n).card ≤ U.card := Finset.card_le_card (hU n)
            have hB : (U \ visited).card = (U \ insert n visited).card + 1 := hcard.symm
            rw [hB] at hpot
            rw [add_mul, one_mul] at hpot
            generalize hD : (U \ insert n visited).card * (U.card + 1) = D at *
            omega)
        cases htr : traverseFuel g d pl f (insert n visited)
            (rest ++ sortedList (g.dirItems d n)) with
        | none => rw [htr] at hrec; simp at hrec
        | some l => simp [htr]

theorem traverseFuel_mono (g : Graph) (d : Int) (pl : Bool) :
    ∀ (f f' : Nat) (visited : Finset Nat) (struct l : List Nat),
      traverseFuel g d pl f visited struct = some l → f ≤ f' →
      traverseFuel g d pl f' visited struct = some l := by
  intro f
  induction f with
  | zero =>
    intro f' visited struct l h hle
    rw [traverseFuel] at h
    cases hpop : popAt pl struct with
    | none =>
      rw [hpop] at h
      simp only [Option.some.injEq] at h
      rw [traverseFuel_nil g d pl f' visited struct hpop, h]
    | some p => rw [hpop] at h; simp at h
  | succ f ih =>
    intro f' visited struct l h hle
    cases f' with
    | zero => omega
    | succ f'' =>
      rw [traverseFuel] at h
      rw [traverseFuel]
      cases hpop : popAt pl struct with
      | none => rw [hpop] at h; rw [h]
      | some p =>
        obtain ⟨n, rest⟩ := p
        rw [hpop] at h
        by_cases hv : n ∈ visited
        · simp only [hv, if_true] at h ⊢
          exact ih f'' visited rest l h (by omega)
        · simp only [hv, if_false] at h ⊢
          rcases Option.map_eq_some'.mp h with ⟨l', hl', hcons⟩
          rw [ih f'' (insert n visited) (rest ++ sortedList (g.dirItems d n)) l' hl'
            (by omega)]
          simp [hcons]

theorem mem_dropLast_or_getLast {l : List Nat} {x : Nat} (hx : x ∈ l)
    (hne : l ≠ []) : x ∈ l.dropLast ∨ l.getLast? = some x := by
  have hsplit := List.dropLast_append_getLast hne
  rw [← hsplit] at hx
  rcases List.mem_append.mp hx with h | h
  · exact Or.inl h
  · simp only [List.mem_singleton] at h
    right
    rw [List.getLast?_eq_getLast l hne, h]

/-- Reachability in direction `d`: zero or more `dirItems` steps from `s`. -/
inductive Reaches (g : Graph) (d : Int) (s : Nat) : Nat → Prop
  | refl : Reaches g d s s
  | step {b c : Nat} : Reaches g d s b → c ∈ g.dirItems d b → Reaches g d s c

/-- Structural facts about a completed traversal: everything in `struct` ends up
visited or output, outputs are neighbour-closed into `visited ∪ output`, the
output has no duplicates, and no output was previously visited. -/
theorem traverseFuel_inv (g : Graph) (d : Int) (pl : Bool) :
    ∀ (f : Nat) (visited : Finset Nat) (struct l : List Nat),
      traverseFuel g d pl f visited struct = some l →
      (∀ x ∈ struct, x ∈ visited ∨ x ∈ l) ∧
      (∀ x ∈ l, ∀ y ∈ g.dirItems d x, y ∈ visited ∨ y ∈ l) ∧
      l.Nodup ∧ (∀ x ∈ l, x ∉ visited) := by
  intro f
  induction f with
  | zero =>
    intro visited struct l h
    rw [traverseFuel] at h
    cases hpop : popAt pl struct with
    | none =>
      rw [hpop] at h
      simp only [Option.some.injEq] at h
      subst h
      have : struct = [] := (popAt_none pl struct).mp hpop
      subst this
      simp
    | some p => rw [hpop] at h; simp at h
  | succ f ih =>
    intro visited struct l h
    rw [traverseFuel] at h
    cases hpop : popAt pl struct with
    | none =>
      rw [hpop] at h
      simp only [Option.some.injEq] at h
      subst h
      have : struct = [] := (popAt_none pl struct).mp hpop
      subst this
      simp
    | some p =>
      obtain ⟨n, rest⟩ := p
      rw [hpop] at h
      obtain ⟨hmem, hlen, hrest⟩ := popAt_some hpop
      have hsplit : ∀ x ∈ struct, x = n ∨ x ∈ rest := by
        intro x hx
        by_cases hxn : x = n
        · exact Or.inl hxn
        · -- x occurs in struct; popAt removes one occurrence of n
          right
          unfold popAt at hpop
          cases pl
          · simp only [Bool.false_eq_true, if_false] at hpop
            cases struct with
            | nil => simp at hx
            | cons a as =>
              simp only [Option.some.injEq, Prod.mk.injEq] at hpop
              obtain ⟨h1, h2⟩ := hpop
              subst h1; subst h2
              rcases List.mem_cons.mp hx with h | h
              · exact absurd h hxn
              · exact h
          · simp only [if_true] at hpop
            cases hl : struct.getLast? with
            | none => rw [hl] at hpop; simp at hpop
            | some m =>
              rw [hl] at hpop
              simp only [Option.some.injEq, Prod.mk.injEq] at hpop
              obtain ⟨h1, h2⟩ := hpop
              subst h1; subst h2
              have hne : struct ≠ [] := by
                intro he; subst he; simp at hl
              rcases mem_dropLast_or_getLast hx hne with h | h
              · exact h
              · rw [hl] at h; simp only [Option.some.injEq] at h
                exact absurd h.symm hxn
      by_cases hv : n ∈ visited
      · simp only [hv, if_true] at h
        obtain ⟨hA, hB, hC, hD⟩ := ih visited rest l h
        refine ⟨?_, hB, hC, hD⟩
        intro x hx
        rcases hsplit x hx with hxn | hxr
        · subst hxn; exact Or.inl hv
        · exact hA x hxr
      · simp only [hv, if_false] at h
        rcases Option.map_eq_some'.mp h with ⟨l', hl', rfl⟩
        obtain ⟨hA, hB, hC, hD⟩ :=
          ih (insert n visited) (rest ++ sortedList (g.dirItems d n)) l' hl'
        have hAmem : ∀ x, x ∈ insert n visited ∨ x ∈ l' → x ∈ visited ∨ x ∈ n :: l' := by
          intro x hx
          rcases hx with hx | hx
          · rcases Finset.mem_insert.mp hx with hx | hx
            · subst hx; exact Or.inr (List.mem_cons_self _ _)
            · exact Or.inl hx
          · exact Or.inr (List.mem_cons_of_mem n hx)
        refine ⟨?_, ?_, ?_, ?_⟩
        · intro x hx
          rcases hsplit x hx with hxn | hxr
          · subst hxn; exact Or.inr (List.mem_cons_self _ _)
          · exact hAmem x (hA x (List.mem_append_left _ hxr))
        · intro x hx y hy
          rcases List.mem_cons.mp hx with hx | hx
          · subst hx
            exact hAmem y (hA y (List.mem_append_right _ ((mem_sortedList _ _).mpr hy)))
          · exact hAmem y (hB x hx y hy)
        · refine List.nodup_cons.mpr ⟨?_, hC⟩
          intro hcontra
          exact (hD n hcontra) (Finset.mem_insert_self n visited)
        · intro x hx
          rcases List.mem_cons.mp hx with hx | hx
          · subst hx; exact hv
          · intro hxv
            exact (hD x hx) (Finset.mem_insert_of_mem hxv)

/-- Every output node satisfies any step-closed predicate that holds on the seed
list (soundness of the traversal with respect to reachability). -/
theorem traverseFuel_sound (g : Graph) (d : Int) (pl : Bool) (P : Nat → Prop)
    (hstep : ∀ b c, P b → c ∈ g.dirItems d b → P c) :
    ∀ (f : Nat) (visited : Finset Nat) (struct l : List Nat),
      traverseFuel g d pl f visited struct = some l →
      (∀ x ∈ struct, P x) → ∀ x ∈ l, P x := by
  intro f
  induction f with
  | zero =>
    intro visited struct l h hP
    rw [traverseFuel] at h
    cases hpop : popAt pl struct with
    | none =>
      rw [hpop] at h
      simp only [Option.some.injEq] at h
      subst h; simp
    | some p => rw [hpop] at h; simp at h
  | succ f ih =>
    intro visited struct l h hP
    rw [traverseFuel] at h
    cases hpop : popAt pl struct with
    | none =>
      rw [hpop] at h
      simp only [Option.some.injEq] at h
      subst h; simp
    | some p =>
      obtain ⟨n, rest⟩ := p
      rw [hpop] at h
      obtain ⟨hmem, hlen, hrest⟩ := popAt_some hpop
      by_cases hv : n ∈ visited
      · simp only [hv, if_true] at h
        exact ih visited rest l h (fun x hx => hP x (hrest x hx))
      · simp only [hv, if_false] at h
        rcases Option.map_eq_some'.mp h with ⟨l', hl', rfl⟩
        have hPn : P n := hP n hmem
        have hnext : ∀ x ∈ rest ++ sortedList (g.dirItems d n), P x := by
          intro x hx
          rcases List.mem_append.mp hx with hx | hx
          · exact hP x (hrest x hx)
          · exact hstep n x hPn ((mem_sortedList _ _).mp hx)
        intro x hx
        rcases List.mem_cons.mp hx with hx | hx
        · subst hx; exact hPn
        · exact ih (insert n visited) _ l' hl' hnext x hx

theorem dirItems_subset_endpoints (g : Graph) (d : Int) (n : Nat) :
    g.dirItems d n ⊆ g.endpoints := by
  intro m hm
  rw [mem_dirItems] at hm
  unfold Graph.endpoints
  by_cases h : d = BACKWARD
  · rw [if_pos h] at hm
    simp only [Finset.mem_union]
    exact Or.inr (Finset.mem_image_of_mem Prod.snd hm)
  · rw [if_neg h] at hm
    simp only [Finset.mem_union]
    exact Or.inl (Or.inl (Or.inr (Finset.mem_image_of_mem Prod.snd hm)))

/-- Enough fuel for a traversal seeded with `[start]` to run to completion. -/
def travBound (g : Graph) (start : Nat) : Nat :=
  (insert start g.endpoints).card * ((insert start g.endpoints).card + 1) + 1

/-- A full run of `helpers._traverse` from `start` (visited set empty, `struct`
seeded with the start node), collecting the visited nodes in callback order. -/
def travRun (g : Graph) (d : Int) (pl : Bool) (start : Nat) : Option (List Nat) :=
  traverseFuel g d pl (travBound g start) ∅ [start]

theorem travRun_isSome (g : Graph) (d : Int) (pl : Bool) (start : Nat) :
    (travRun g d pl start).isSome := by
  apply traverseFuel_isSome g d pl (insert start g.endpoints)
  · intro m
    exact subset_trans (dirItems_subset_endpoints g d m) (Finset.subset_insert _ _)
  · intro x hx
    simp only [List.mem_singleton] at hx
    subst hx
    exact Finset.mem_insert_self _ _
  · rw [Finset.sdiff_empty]
    simp [travBound]

/-- The visit-order list of a full traversal (total: the fuel always suffices). -/
def travList (g : Graph) (d : Int) (pl : Bool) (start : Nat) : List Nat :=
  (travRun g d pl start).getD []

/-- `depth_first_traversal_for_node` with the collecting callback. -/
def depth_first_list (g : Graph) (d : Int) (start : Nat) : List Nat :=
  travList g d true start

/-- `breadth_first_traversal_for_node` with the collecting callback. -/
def breadth_first_list (g : Graph) (d : Int) (start : Nat) : List Nat :=
  travList g d false start

theorem travRun_eq_travList (g : Graph) (d : Int) (pl : Bool) (start : Nat) :
    travRun g d pl start = some (travList g d pl start) := by
  cases h : travRun g d pl start with
  | none => have := travRun_isSome g d pl start; rw [h] at this; simp at this
  | some l => simp [travList, h]

theorem travList_nodup (g : Graph) (d : Int) (pl : Bool) (start : Nat) :
    (travList g d pl start).Nodup :=
  (traverseFuel_inv g d pl _ _ _ _ (travRun_eq_travList g d pl start)).2.2.1

theorem travList_mem (g : Graph) (d : Int) (pl : Bool) (start : Nat) (x : Nat) :
    x ∈ travList g d pl start ↔ Reaches g d start x := by
  have hrun := travRun_eq_travList g d pl start
  obtain ⟨hA, hB, _, _⟩ := traverseFuel_inv g d pl _ _ _ _ hrun
  constructor
  · intro hx
    refine traverseFuel_sound g d pl (Reaches g d start) ?_ _ _ _ _ hrun ?_ x hx
    · intro b c hb hc; exact Reaches.step hb hc
    · intro y hy
      simp only [List.mem_singleton] at hy
      subst hy
      exact Reaches.refl
  · intro hr
    induction hr with
    | refl =>
      rcases hA start (by simp) with h | h
      · simp at h
      · exact h
    | step hab hmem ih =>
      rcases hB _ ih _ hmem with h | h
      · simp at h
      · exact h

/-! ## Derived queries (`helpers`) -/

/-- `helpers._absolutes`: depth-first traverse in direction `d` collecting each
visited node whose `NodeSet` in direction `d` is empty. -/
def absolutes (g : Graph) (n : Nat) (d : Int) : Finset Nat :=
  ((depth_first_list g d n).filter (fun m => g.dirItems d m = ∅)).toFinset

/-- `helpers.roots_for_node`. -/
def roots_for_node (g : Graph) (n : Nat) : Finset Nat := absolutes g n BACKWARD

/-- `helpers.leaves_for_node`. -/
def leaves_for_node (g : Graph) (n : Nat) : Finset Nat := absolutes g n FORWARD

/-- `helpers.gather_nodes`: union of depth-first traversals forward from every
root (direction unspecified), or a single traversal from `n` (direction given,
with Python `direction or FORWARD`). -/
def gather_nodes (g : Graph) (n : Nat) (dir : Option Int) : Finset Nat :=
  let startPoints :=
    if dir.isNone then sortedList (roots_for_node g n) else [n]
  startPoints.foldl
    (fun acc sp => acc ∪ (depth_first_list g (pyOr dir FORWARD) sp).toFinset) ∅

/-- `helpers.find_nodes`: all gathered nodes satisfying the condition. -/
def find_nodes (g : Graph) (n : Nat) (cond : Nat → Bool) (dir : Option Int) :
    Finset Nat :=
  (gather_nodes g n dir).filter (fun m => cond m)

/-- `helpers.find_node`: the `one`-style cardinality checks on the `find_nodes`
matches, with the same messages and the same result selection as `NodeSet.one`. -/
def find_node (g : Graph) (n : Nat) (cond : Nat → Bool) (dir : Option Int)
    (raiseOnEmpty : Bool) : Except String (Option Nat) :=
  if find_nodes g n cond dir = ∅ ∧ raiseOnEmpty then
    .error "Called NodeSet.one on empty set"
  else if 1 < (find_nodes g n cond dir).card then
    .error "Called NodeSet.one on set with multiple values"
  else .ok (sortedList (find_nodes g n cond dir)).head?

/-- The start points of `helpers.flatten_from_node`: the leaves when no direction
is given, else the node itself. -/
def flattenStarts (g : Graph) (n : Nat) (dir : Option Int) : List Nat :=
  if dir.isNone then sortedList (leaves_for_node g n) else [n]

/-- One start point of `helpers.flatten_from_node`: depth-first traverse in
direction `direction or BACKWARD`, fail if any collected node has more than one
parent, and reverse unless the requested direction is `FORWARD`. -/
def flattenStep (g : Graph) (dir : Option Int) (sp : Nat) :
    Except String (List Nat) :=
  let l := depth_first_list g (pyOr dir BACKWARD) sp
  if l.any (fun m => 1 < (g.dirItems BACKWARD m).card) then
    .error "Flattening nodes with multiple parents is not supported at the moment"
  else .ok (if dir = some FORWARD then l else l.reverse)

/-- The `for start_point in start_points` loop of `helpers.flatten_from_node`:
append each flattened list, propagating the first raised error. -/
def mapExcept (f : Nat → Except String (List Nat)) :
    List Nat → Except String (List (List Nat))
  | [] => .ok []
  | a :: rest =>
    match f a with
    | .error e => .error e
    | .ok b =>
      match mapExcept f rest with
      | .error e => .error e
      | .ok bs => .ok (b :: bs)

/-- `helpers.flatten_from_node`. -/
def flatten_from_node (g : Graph) (n : Nat) (dir : Option Int) :
    Except String (List (List Nat)) :=
  mapExcept (flattenStep g dir) (flattenStarts g n dir)

/-- A chain 0 → 1 (node 0 has child 1), bidirectionally linked. -/
def gChain2 : Graph := ⟨2, {(0, 1)}, {(1, 0)}, fun _ => 0⟩


/-! ## Bidirectional consistency (C1) and idempotence (C9) -/

theorem nsAdd_fwd (g : Graph) (o v : Nat) :
    nsAdd g o FORWARD v =
      if v ∈ g.dirItems FORWARD o then
        { g with childEdges := insert (o, v) g.childEdges }
      else
        { g with childEdges := insert (o, v) g.childEdges,
                 parentEdges := insert (v, o) g.parentEdges } := by
  unfold nsAdd Graph.insertDir
  by_cases hm : v ∈ g.dirItems FORWARD o <;>
    simp only [FORWARD, BACKWARD] at hm <;>
    simp [hm, FORWARD, BACKWARD]

theorem nsAdd_bwd (g : Graph) (o v : Nat) :
    nsAdd g o BACKWARD v =
      if v ∈ g.dirItems BACKWARD o then
        { g with parentEdges := insert (o, v) g.parentEdges }
      else
        { g with parentEdges := insert (o, v) g.parentEdges,
                 childEdges := insert (v, o) g.childEdges } := by
  unfold nsAdd Graph.insertDir
  by_cases hm : v ∈ g.dirItems BACKWARD o <;>
    simp only [FORWARD, BACKWARD] at hm <;>
    simp [hm, FORWARD, BACKWARD]

theorem nsDiscard_fwd (g : Graph) (o v : Nat) :
    nsDiscard g o FORWARD v =
      if v ∈ g.dirItems FORWARD o then
        { g with childEdges := g.childEdges.erase (o, v),
                 parentEdges := g.parentEdges.erase (v, o) }
      else
        { g with childEdges := g.childEdges.erase (o, v) } := by
  unfold nsDiscard Graph.eraseDir
  by_cases hm : v ∈ g.dirItems FORWARD o <;>
    simp only [FORWARD, BACKWARD] at hm <;>
    simp [hm, FORWARD, BACKWARD]

theorem nsDiscard_bwd (g : Graph) (o v : Nat) :
    nsDiscard g o BACKWARD v =
      if v ∈ g.dirItems BACKWARD o then
        { g with parentEdges := g.parentEdges.erase (o, v),
                 childEdges := g.childEdges.erase (v, o) }
      else
        { g with parentEdges := g.parentEdges.erase (o, v) } := by
  unfold nsDiscard Graph.eraseDir
  by_cases hm : v ∈ g.dirItems BACKWARD o <;>
    simp only [FORWARD, BACKWARD] at hm <;>
    simp [hm, FORWARD, BACKWARD]

theorem mem_dirItems_fwd (g : Graph) (n m : Nat) :
    m ∈ g.dirItems FORWARD n ↔ (n, m) ∈ g.childEdges := by
  rw [mem_dirItems]
  simp [FORWARD, BACKWARD]

theorem mem_dirItems_bwd (g : Graph) (n m : Nat) :
    m ∈ g.dirItems BACKWARD n ↔ (n, m) ∈ g.parentEdges := by
  rw [mem_dirItems]
  simp [BACKWARD]

theorem bidir_nsAdd (g : Graph) (o v : Nat) (d : Int)
    (hd : d = FORWARD ∨ d = BACKWARD) (hg : Bidir g) : Bidir (nsAdd g o d v) := by
  rcases hd with hd | hd <;> subst hd
  · by_cases hm : v ∈ g.dirItems FORWARD o
    · rw [nsAdd_fwd, if_pos hm,
        Finset.insert_eq_self.mpr ((mem_dirItems_fwd g o v).mp hm)]
      exact hg
    · rw [nsAdd_fwd, if_neg hm]
      intro a b
      constructor
      · intro h
        rcases Finset.mem_insert.mp h with heq | h
        · have h1 : a = o := congrArg Prod.fst heq
          have h2 : b = v := congrArg Prod.snd heq
          exact Finset.mem_insert.mpr (Or.inl (by rw [h1, h2]))
        · exact Finset.mem_insert.mpr (Or.inr ((hg a b).mp h))
      · intro h
        rcases Finset.mem_insert.mp h with heq | h
        · have h1 : b = v := congrArg Prod.fst heq
          have h2 : a = o := congrArg Prod.snd heq
          exact Finset.mem_insert.mpr (Or.inl (by rw [h1, h2]))
        · exact Finset.mem_insert.mpr (Or.inr ((hg a b).mpr h))
  · by_cases hm : v ∈ g.dirItems BACKWARD o
    · rw [nsAdd_bwd, if_pos hm,
        Finset.insert_eq_self.mpr ((mem_dirItems_bwd g o v).mp hm)]
      exact hg
    · rw [nsAdd_bwd, if_neg hm]
      intro a b
      constructor
      · intro h
        rcases Finset.mem_insert.mp h with heq | h
        · have h1 : a = v := congrArg Prod.fst heq
          have h2 : b = o := congrArg Prod.snd heq
          exact Finset.mem_insert.mpr (Or.inl (by rw [h1, h2]))
        · exact Finset.mem_insert.mpr (Or.inr ((hg a b).mp h))
      · intro h
        rcases Finset.mem_insert.mp h with heq | h
        · have h1 : b = o := congrArg Prod.fst heq
          have h2 : a = v := congrArg Prod.snd heq
          exact Finset.mem_insert.mpr (Or.inl (by rw [h1, h2]))
        · exact Finset.mem_insert.mpr (Or.inr ((hg a b).mpr h))

theorem bidir_nsDiscard (g : Graph) (o v : Nat) (d : Int)
    (hd : d = FORWARD ∨ d = BACKWARD) (hg : Bidir g) : Bidir (nsDiscard g o d v) := by
  rcases hd with hd | hd <;> subst hd
  · by_cases hm : v ∈ g.dirItems FORWARD o
    · rw [nsDiscard_fwd, if_pos hm]
      intro a b
      constructor
      · intro h
        obtain ⟨hne, h⟩ := Finset.mem_erase.mp h
        refine Finset.mem_erase.mpr ⟨?_, (hg a b).mp h⟩
        intro heq
        apply hne
        have h1 : b = v := congrArg Prod.fst heq
        have h2 : a = o := congrArg Prod.snd heq
        rw [h1, h2]
      · intro h
        obtain ⟨hne, h⟩ := Finset.mem_erase.mp h
        refine Finset.mem_erase.mpr ⟨?_, (hg a b).mpr h⟩
        intro heq
        apply hne
        have h1 : a = o := congrArg Prod.fst heq
        have h2 : b = v := congrArg Prod.snd heq
        rw [h1, h2]
    · rw [nsDiscard_fwd, if_neg hm,
        Finset.erase_eq_of_not_mem (fun hc => hm ((mem_dirItems_fwd g o v).mpr hc))]
      exact hg
  · by_cases hm : v ∈ g.dirItems BACKWARD o
    · rw [nsDiscard_bwd, if_pos hm]
      intro a b
      constructor
      · intro h
        obtain ⟨hne, h⟩ := Finset.mem_erase.mp h
        refine Finset.mem_erase.mpr ⟨?_, (hg a b).mp h⟩
        intro heq
        apply hne
        have h1 : b = o := congrArg Prod.fst heq
        have h2 : a = v := congrArg Prod.snd heq
        rw [h1, h2]
      · intro h
        obtain ⟨hne, h⟩ := Finset.mem_erase.mp h
        refine Finset.mem_erase.mpr ⟨?_, (hg a b).mpr h⟩
        intro heq
        apply hne
        have h1 : a = v := congrArg Prod.fst heq
        have h2 : b = o := congrArg Prod.snd heq
        rw [h1, h2]
    · rw [nsDiscard_bwd, if_neg hm,
        Finset.erase_eq_of_not_mem (fun hc => hm ((mem_dirItems_bwd g o v).mpr hc))]
      exact hg

theorem bidir_nsUpdate (g : Graph) (o : Nat) (d : Int) (vs : List Nat)
    (hd : d = FORWARD ∨ d = BACKWARD) (hg : Bidir g) : Bidir (nsUpdate g o d vs) := by
  induction vs generalizing g with
  | nil => exact hg
  | cons v rest ih => exact ih (nsAdd g o d v) (bidir_nsAdd g o v d hd hg)

theorem bidir_nsDiscardMany (g : Graph) (o : Nat) (d : Int) (vs : List Nat)
    (hd : d = FORWARD ∨ d = BACKWARD) (hg : Bidir g) :
    Bidir (nsDiscardMany g o d vs) := by
  induction vs generalizing g with
  | nil => exact hg
  | cons v rest ih => exact ih (nsDiscard g o d v) (bidir_nsDiscard g o v d hd hg)

theorem bidir_newNode (g : Graph) (data : Int) (ps cs : List Nat) (hg : Bidir g) :
    Bidir (newNode g data ps cs).1 := by
  unfold newNode
  apply bidir_nsUpdate _ _ _ _ (Or.inl rfl)
  apply bidir_nsUpdate _ _ _ _ (Or.inr rfl)
  exact hg

theorem bidir_applyOp (g : Graph) (op : Op) (hg : Bidir g) : Bidir (applyOp g op) := by
  cases op with
  | add o b v =>
    refine bidir_nsAdd g o v _ ?_ hg
    cases b
    · exact Or.inl rfl
    · exact Or.inr rfl
  | discard o b v =>
    refine bidir_nsDiscard g o v _ ?_ hg
    cases b
    · exact Or.inl rfl
    · exact Or.inr rfl
  | update o b vs =>
    refine bidir_nsUpdate g o _ vs ?_ hg
    cases b
    · exact Or.inl rfl
    · exact Or.inr rfl
  | discardMany o b vs =>
    refine bidir_nsDiscardMany g o _ vs ?_ hg
    cases b
    · exact Or.inl rfl
    · exact Or.inr rfl
  | construct dt ps cs => exact bidir_newNode g dt ps cs hg

theorem bidir_applyOps (g : Graph) (ops : List Op) (hg : Bidir g) :
    Bidir (applyOps g ops) := by
  induction ops generalizing g with
  | nil => exact hg
  | cons op rest ih => exact ih (applyOp g op) (bidir_applyOp g op hg)

theorem sortedList_singleton (x : Nat) : sortedList {x} = [x] := by
  obtain ⟨a, ha⟩ := List.length_eq_one.mp
    (show (sortedList {x}).length = 1 by simp [length_sortedList])
  have hax : a = x := by
    have := (mem_sortedList {x} a).mp (by rw [ha]; simp)
    simpa using this
  rw [ha, hax]

theorem nsOne_multi {s : Finset Nat} (b : Bool) (h : 1 < s.card) :
    nsOne s b = .error "Called NodeSet.one on set with multiple values" := by
  have hne : ¬(s = ∅ ∧ b = true) := by
    rintro ⟨he, _⟩
    subst he
    simp at h
  unfold nsOne
  rw [if_neg (by tauto), if_pos h]

theorem nsOne_empty_raise (s : Finset Nat) (h : s = ∅) :
    nsOne s true = .error "Called NodeSet.one on empty set" := by
  subst h
  rfl

theorem nsOne_empty_no_raise (s : Finset Nat) (h : s = ∅) :
    nsOne s false = .ok none := by
  subst h
  rfl

theorem nsOne_singleton (b : Bool) (x : Nat) : nsOne {x} b = .ok (some x) := by
  unfold nsOne
  rw [if_neg (by simp), if_neg (by simp), sortedList_singleton]
  rfl

theorem find_node_eq_nsOne (g : Graph) (n : Nat) (cond : Nat → Bool)
    (dir : Option Int) (b : Bool) :
    find_node g n cond dir b = nsOne (find_nodes g n cond dir) b := rfl

/-- C6: `NodeSet.one` and `find_node` raise exactly when the cardinality is
wrong — more than one member/match, or zero with fail-on-empty requested; with
zero matches and no fail-on-empty they return the explicit absent value `none`,
and with exactly one member they return it. -/
theorem claim6_one_find_cardinality (s : Finset Nat) (b : Bool) (g : Graph)
    (n : Nat) (cond : Nat → Bool) (dir : Option Int) :
    (1 < s.card → ∃ e, nsOne s b = .error e) ∧
    (s = ∅ → nsOne s true = .error "Called NodeSet.one on empty set") ∧
    (s = ∅ → nsOne s false = .ok none) ∧
    (∀ x, s = {x} → nsOne s b = .ok (some x)) ∧
    (1 < (find_nodes g n cond dir).card → ∃ e, find_node g n cond dir b = .error e) ∧
    (find_nodes g n cond dir = ∅ →
      find_node g n cond dir true = .error "Called NodeSet.one on empty set") ∧
    (find_nodes g n cond dir = ∅ → find_node g n cond dir false = .ok none) ∧
    (∀ x, find_nodes g n cond dir = {x} →
      find_node g n cond dir b = .ok (some x)) := by
  refine ⟨fun h => ⟨_, nsOne_multi b h⟩, nsOne_empty_raise s, nsOne_empty_no_raise s,
    fun x hx => by rw [hx]; exact nsOne_singleton b x, ?_, ?_, ?_, ?_⟩
  · intro h
    rw [find_node_eq_nsOne]
    exact ⟨_, nsOne_multi b h⟩
  · intro h
    rw [find_node_eq_nsOne]
    exact nsOne_empty_raise _ h
  · intro h
    rw [find_node_eq_nsOne]
    exact nsOne_empty_no_raise _ h
  · intro x hx
    rw [find_node_eq_nsOne, hx]
    exact nsOne_singleton b x

/-- Witness for C6 on concrete sets and on the concrete chain graph. -/
theorem claim6_witness :
    (1 < ({4, 7} : Finset Nat).card ∧ ∃ e, nsOne {4, 7} false = .error e) ∧
    nsOne ∅ true = .error "Called NodeSet.one on empty set" ∧
    nsOne ∅ false = .ok none ∧
    nsOne {5} false = .ok (some 5) ∧
    (1 < (find_nodes gChain2 0 (fun _ => true) none).card ∧
      ∃ e, find_node gChain2 0 (fun _ => true) none false = .error e) ∧
    (find_nodes gChain2 0 (fun _ => false) none = ∅ ∧
      find_node gChain2 0 (fun _ => false) none true =
        .error "Called NodeSet.one on empty set") ∧
    find_node gChain2 0 (fun _ => false) none false = .ok none ∧
    (find_nodes gChain2 0 (fun m => m = 1) none = {1} ∧
      find_node gChain2 0 (fun m => m = 1) none false = .ok (some 1)) := by
  have h1 := claim6_one_find_cardinality {4, 7} false gChain2 0 (fun _ => true) none
  have h2 := claim6_one_find_cardinality ∅ true gChain2 0 (fun _ => false) none
  have h3 := claim6_one_find_cardinality {5} false gChain2 0 (fun m => m = 1) none
  refine ⟨⟨by decide, h1.1 (by decide)⟩,
    h2.2.1 rfl,
    h2.2.2.1 rfl,
    h3.2.2.2.1 5 rfl,
    ⟨by decide, h1.2.2.2.2.1 (by decide)⟩,
    ⟨by decide, h2.2.2.2.2.2.1 (by decide)⟩,
    h2.2.2.2.2.2.2.1 (by decide),
    ⟨by decide, h3.2.2.2.2.2.2.2 1 (by decide)⟩⟩

/-- C1: after every sequence of edge-set mutations (add, remove, bulk
update/remove, construction with initial parents/children) starting from the
empty heap, `B` is in `A`'s children-set iff `A` is in `B`'s parents-set. -/
theorem claim1_bidirectional_invariant (ops : List Op) (a b : Nat) :
    b ∈ (applyOps initGraph ops).dirItems FORWARD a ↔
      a ∈ (applyOps initGraph ops).dirItems BACKWARD b := by
  have hg : Bidir (applyOps initGraph ops) :=
    bidir_applyOps initGraph ops (by intro x y; simp [initGraph])
  rw [mem_dirItems_fwd, mem_dirItems_bwd]
  exact hg a b

theorem nsAdd_idem (g : Graph) (o : Nat) (d : Int) (v : Nat)
    (hm : v ∈ g.dirItems d o) : nsAdd g o d v = g := by
  have hedge := (mem_dirItems g d o v).mp hm
  unfold nsAdd Graph.insertDir
  rw [if_pos hm]
  by_cases hd : d = BACKWARD
  · rw [if_pos hd] at hedge
    rw [if_pos hd, Finset.insert_eq_self.mpr hedge]
  · rw [if_neg hd] at hedge
    rw [if_neg hd, Finset.insert_eq_self.mpr hedge]

theorem nsDiscard_idem (g : Graph) (o : Nat) (d : Int) (v : Nat)
    (hm : v ∉ g.dirItems d o) : nsDiscard g o d v = g := by
  have hedge : (o, v) ∉ (if d = BACKWARD then g.parentEdges else g.childEdges) :=
    fun hc => hm ((mem_dirItems g d o v).mpr hc)
  unfold nsDiscard Graph.eraseDir
  rw [if_neg hm]
  by_cases hd : d = BACKWARD
  · rw [if_pos hd] at hedge
    rw [if_pos hd, Finset.erase_eq_of_not_mem hedge]
  · rw [if_neg hd] at hedge
    rw [if_neg hd, Finset.erase_eq_of_not_mem hedge]

/-- C9: adding a node already present in an edge-set, or discarding a node
absent from it, leaves the whole heap — in particular both the set itself and
the reciprocal set — completely unchanged. -/
theorem claim9_idempotent_mutation (g : Graph) (o : Nat) (d : Int) (v : Nat) :
    (v ∈ g.dirItems d o → nsAdd g o d v = g) ∧
    (v ∉ g.dirItems d o → nsDiscard g o d v = g) :=
  ⟨nsAdd_idem g o d v, nsDiscard_idem g o d v⟩

/-- Witness for C9 on the concrete two-node chain. -/
theorem claim9_witness :
    (1 ∈ gChain2.dirItems FORWARD 0 ∧ nsAdd gChain2 0 FORWARD 1 = gChain2) ∧
    (0 ∉ gChain2.dirItems FORWARD 0 ∧ nsDiscard gChain2 0 FORWARD 0 = gChain2) :=
  ⟨⟨by decide, (claim9_idempotent_mutation gChain2 0 FORWARD 1).1 (by decide)⟩,
   ⟨by decide, (claim9_idempotent_mutation gChain2 0 FORWARD 0).2 (by decide)⟩⟩

/-- The two-node cycle 0 → 1 → 0 of the spec's cycle-safety property. -/
def gCycle2 : Graph := ⟨2, {(0, 1), (1, 0)}, {(0, 1), (1, 0)}, fun _ => 0⟩

/-- C8: depth-first and breadth-first traversal complete within the fuel bound
on every heap (`travRun` always returns a result), the visit list has no
duplicates, and it contains exactly the nodes reachable from the start — and on
the concrete two-node cycle both traversals from node 0 visit 0 and 1 once
each and stop. -/
theorem claim8_traversal_cycle_safe :
    (∀ (g : Graph) (d : Int) (pl : Bool) (start : Nat),
      travRun g d pl start = some (travList g d pl start) ∧
      (travList g d pl start).Nodup ∧
      ∀ x, x ∈ travList g d pl start ↔ Reaches g d start x) ∧
    depth_first_list gCycle2 FORWARD 0 = [0, 1] ∧
    breadth_first_list gCycle2 FORWARD 0 = [0, 1] :=
  ⟨fun g d pl start =>
    ⟨travRun_eq_travList g d pl start, travList_nodup g d pl start,
      travList_mem g d pl start⟩,
   by decide, by decide⟩

/-! ## gather_nodes (C4) -/

theorem mem_foldl_union (f : Nat → Finset Nat) (sps : List Nat)
    (init : Finset Nat) (x : Nat) :
    (x ∈ sps.foldl (fun acc sp => acc ∪ f sp) init) ↔
      x ∈ init ∨ ∃ sp ∈ sps, x ∈ f sp := by
  induction sps generalizing init with
  | nil => simp
  | cons a rest ih =>
    rw [List.foldl_cons, ih]
    simp only [Finset.mem_union, List.mem_cons]
    constructor
    · rintro ((h | h) | ⟨sp, hsp, hx⟩)
      · exact Or.inl h
      · exact Or.inr ⟨a, Or.inl rfl, h⟩
      · exact Or.inr ⟨sp, Or.inr hsp, hx⟩
    · rintro (h | ⟨sp, hsp | hsp, hx⟩)
      · exact Or.inl (Or.inl h)
      · rw [hsp] at hx
        exact Or.inl (Or.inr hx)
      · exact Or.inr ⟨sp, hsp, hx⟩

theorem mem_absolutes (g : Graph) (n : Nat) (d : Int) (x : Nat) :
    x ∈ absolutes g n d ↔ Reaches g d n x ∧ g.dirItems d x = ∅ := by
  unfold absolutes
  rw [List.mem_toFinset, List.mem_filter]
  rw [show depth_first_list g d n = travList g d true n from rfl]
  rw [travList_mem g d true n x]
  simp

theorem mem_roots_for_node (g : Graph) (n : Nat) (x : Nat) :
    x ∈ roots_for_node g n ↔
      Reaches g BACKWARD n x ∧ g.dirItems BACKWARD x = ∅ :=
  mem_absolutes g n BACKWARD x

theorem mem_leaves_for_node (g : Graph) (n : Nat) (x : Nat) :
    x ∈ leaves_for_node g n ↔
      Reaches g FORWARD n x ∧ g.dirItems FORWARD x = ∅ :=
  mem_absolutes g n FORWARD x

theorem mem_gather_nodes_none (g : Graph) (n : Nat) (x : Nat) :
    x ∈ gather_nodes g n none ↔
      ∃ r ∈ roots_for_node g n, Reaches g FORWARD r x := by
  unfold gather_nodes
  simp only [Option.isNone_none, if_true]
  rw [mem_foldl_union]
  simp only [Finset.not_mem_empty, false_or, mem_sortedList, List.mem_toFinset]
  constructor
  · rintro ⟨sp, hsp, hx⟩
    exact ⟨sp, hsp, (travList_mem g (pyOr none FORWARD) true sp x).mp hx⟩
  · rintro ⟨sp, hsp, hx⟩
    exact ⟨sp, hsp, (travList_mem g (pyOr none FORWARD) true sp x).mpr hx⟩

theorem mem_gather_nodes_some (g : Graph) (n : Nat) (x : Nat) (d : Int)
    (hd : d = FORWARD ∨ d = BACKWARD) :
    x ∈ gather_nodes g n (some d) ↔ Reaches g d n x := by
  have hpy : pyOr (some d) FORWARD = d := by
    rcases hd with hd | hd <;> subst hd <;> rfl
  unfold gather_nodes
  rw [if_neg (by simp)]
  simp only [List.foldl_cons, List.foldl_nil, Finset.empty_union,
    List.mem_toFinset]
  rw [hpy]
  rw [show depth_first_list g d n = travList g d true n from rfl]
  exact travList_mem g d true n x

/-- Formalisation of the connectivity wording of C4: membership of the connected
structure containing `s`, i.e. reachability when both child and parent edges may
be followed. -/
inductive Linked (g : Graph) (s : Nat) : Nat → Prop
  | refl : Linked g s s
  | fwd {b c : Nat} : Linked g s b → c ∈ g.dirItems FORWARD b → Linked g s c
  | bwd {b c : Nat} : Linked g s b → c ∈ g.dirItems BACKWARD b → Linked g s c

/-- Node 0 with child 1, where 1 has a second parent 2 (bidirectionally linked). -/
def gVee : Graph := ⟨3, {(0, 1), (2, 1)}, {(1, 0), (1, 2)}, fun _ => 0⟩

/-- Counterexample to C4 as stated: in `gVee`, node 2 belongs to the connected
structure containing node 0, yet `gather_nodes` with no direction does not
return it (the roots of 0 are just {0}, and 2 is not forward-reachable from 0). -/
theorem claim4_counterexample :
    Linked gVee 0 2 ∧ 2 ∉ gather_nodes gVee 0 none := by
  refine ⟨?_, by decide⟩
  have h1 : Linked gVee 0 1 := @Linked.fwd gVee 0 0 1 Linked.refl (by decide)
  exact @Linked.bwd gVee 0 1 2 h1 (by decide)

/-- C4 amended: with no direction, `gather_nodes` returns the union of the
forward-reachable sets of each of the node's roots (which can be a proper
subset of the connected structure); with direction `FORWARD`/`BACKWARD` it
returns exactly the nodes reachable from the node in that direction. -/
theorem claim4_gather_nodes (g : Graph) (n x : Nat) (d : Int)
    (hd : d = FORWARD ∨ d = BACKWARD) :
    (x ∈ gather_nodes g n none ↔
      ∃ r ∈ roots_for_node g n, Reaches g FORWARD r x) ∧
    (x ∈ gather_nodes g n (some d) ↔ Reaches g d n x) :=
  ⟨mem_gather_nodes_none g n x, mem_gather_nodes_some g n x d hd⟩

/-- Witness for C4 (amended) on the concrete graph `gVee`. -/
theorem claim4_witness :
    ((1 : Nat) ∈ gather_nodes gVee 0 (some FORWARD) ↔ Reaches gVee FORWARD 0 1) ∧
    (1 : Nat) ∈ gather_nodes gVee 0 (some FORWARD) :=
  ⟨(claim4_gather_nodes gVee 0 1 FORWARD (Or.inl rfl)).2, by decide⟩

/-! ## flatten (C3, C7) -/

/-- Formalisation of C3's wording: one sequence per start point, each built by a
depth-first traversal in the OPPOSITE of the requested direction (backward when
no direction is requested), then reversed unless the requested direction is
forward. -/
def flatten_claim_spec (g : Graph) (n : Nat) (dir : Option Int) :
    List (List Nat) :=
  (flattenStarts g n dir).map (fun sp =>
    let l := depth_first_list g
      (match dir with | none => BACKWARD | some d2 => -d2) sp
    if dir = some FORWARD then l else l.reverse)

/-- C3 amended: the traversal runs in the REQUESTED direction (Python
`direction or BACKWARD`), not its opposite; the rest of the sentence stands. -/
def flatten_amended_spec (g : Graph) (n : Nat) (dir : Option Int) :
    List (List Nat) :=
  (flattenStarts g n dir).map (fun sp =>
    let l := depth_first_list g (pyOr dir BACKWARD) sp
    if dir = some FORWARD then l else l.reverse)

/-- Counterexample to C3 as stated: on the chain 0 → 1 with requested direction
forward, the code flattens to [[0, 1]] (it traverses forward), while the
claim's described procedure (traverse in the opposite direction, i.e. backward
from 0, unreversed) yields [[0]]. -/
theorem claim3_counterexample :
    flatten_from_node gChain2 0 (some FORWARD) = .ok [[0, 1]] ∧
    flatten_claim_spec gChain2 0 (some FORWARD) = [[0]] := by
  constructor
  · rfl
  · rfl

theorem mapExcept_ok {f : Nat → Except String (List Nat)} :
    ∀ {xs : List Nat} {ys : List (List Nat)}, mapExcept f xs = .ok ys →
      ∀ (m : Nat → List Nat), (∀ a b, f a = .ok b → b = m a) → ys = xs.map m := by
  intro xs
  induction xs with
  | nil =>
    intro ys h m hm
    unfold mapExcept at h
    simp only [Except.ok.injEq] at h
    rw [← h]
    rfl
  | cons a rest ih =>
    intro ys h m hm
    unfold mapExcept at h
    cases hfa : f a with
    | error e => rw [hfa] at h; simp at h
    | ok b =>
      rw [hfa] at h
      cases hrest : mapExcept f rest with
      | error e => rw [hrest] at h; simp at h
      | ok bs =>
        rw [hrest] at h
        simp only [Except.ok.injEq] at h
        rw [← h, List.map_cons, hm a b hfa, ih hrest m hm]

/-- C3 amended, proved: whenever `flatten_from_node` succeeds, its result is one
sequence per start point (the leaves when no direction is given, else the node
itself), each the visit order of a depth-first traversal in the requested
direction (backward by default), reversed unless the requested direction is
forward. -/
theorem claim3_flatten_shape (g : Graph) (n : Nat) (dir : Option Int)
    (ls : List (List Nat)) (h : flatten_from_node g n dir = .ok ls) :
    ls = flatten_amended_spec g n dir := by
  unfold flatten_from_node at h
  unfold flatten_amended_spec
  refine mapExcept_ok h _ ?_
  intro a b hab
  unfold flattenStep at hab
  by_cases hc : (depth_first_list g (pyOr dir BACKWARD) a).any
      (fun m => 1 < (g.dirItems BACKWARD m).card)
  · rw [if_pos hc] at hab
    simp at hab
  · rw [if_neg hc] at hab
    simp only [Except.ok.injEq] at hab
    rw [← hab]

/-- Witness for C3 (amended) on the chain 0 → 1 with no requested direction. -/
theorem claim3_witness :
    flatten_from_node gChain2 0 none = .ok [[0, 1]] ∧
    [[0, 1]] = flatten_amended_spec gChain2 0 none :=
  ⟨by rfl, claim3_flatten_shape gChain2 0 none [[0, 1]] (by rfl)⟩

theorem mapExcept_error_of_mem {f : Nat → Except String (List Nat)} :
    ∀ {xs : List Nat} {a : Nat} {e : String}, a ∈ xs → f a = .error e →
      ∃ e2, mapExcept f xs = .error e2 := by
  intro xs
  induction xs with
  | nil => intro a e h; simp at h
  | cons c rest ih =>
    intro a e hmem hfa
    unfold mapExcept
    cases hfc : f c with
    | error e3 => exact ⟨e3, rfl⟩
    | ok b =>
      rcases List.mem_cons.mp hmem with hac | har
      · rw [hac] at hfa
        rw [hfa] at hfc
        simp at hfc
      · obtain ⟨e2, he2⟩ := ih har hfa
        rw [he2]
        exact ⟨e2, rfl⟩

/-- A diamond 0 → {1, 2} → 3: node 0 has children 1 and 2, and both 1 and 2
have child 3 (all links bidirectional). -/
def gDiamond : Graph :=
  ⟨4, {(0, 1), (0, 2), (1, 3), (2, 3)}, {(1, 0), (2, 0), (3, 1), (3, 2)}, fun _ => 0⟩

/-- C7: `flatten` fails whenever some node collected in one of its sequences has
more than one parent; in particular it fails on the diamond when flattening
from node 3 with no direction. -/
theorem claim7_flatten_multiparent :
    (∀ (g : Graph) (n : Nat) (dir : Option Int),
      (∃ sp ∈ flattenStarts g n dir,
        ∃ m ∈ depth_first_list g (pyOr dir BACKWARD) sp,
          1 < (g.dirItems BACKWARD m).card) →
      ∃ e, flatten_from_node g n dir = .error e) ∧
    flatten_from_node gDiamond 3 none =
      .error "Flattening nodes with multiple parents is not supported at the moment" := by
  constructor
  · rintro g n dir ⟨sp, hsp, m, hm, hcard⟩
    have hstep : flattenStep g dir sp =
        .error "Flattening nodes with multiple parents is not supported at the moment" := by
      unfold flattenStep
      rw [if_pos]
      rw [List.any_eq_true]
      exact ⟨m, hm, by simpa using hcard⟩
    exact mapExcept_error_of_mem hsp hstep
  · rfl

/-- Witness for C7: the diamond satisfies the multi-parent hypothesis and the
flatten call indeed errors. -/
theorem claim7_witness :
    (∃ sp ∈ flattenStarts gDiamond 3 none,
      ∃ m ∈ depth_first_list gDiamond (pyOr none BACKWARD) sp,
        1 < (gDiamond.dirItems BACKWARD m).card) ∧
    ∃ e, flatten_from_node gDiamond 3 none = .error e :=
  ⟨by decide, (claim7_flatten_multiparent).1 gDiamond 3 none (by decide)⟩

/-! ## Dictionary serialization and cloning (`to_dict`, `from_dict`, `clone`) -/

/-- The shape of the dictionaries produced by `to_dict_from_node` and consumed
by `from_dict`: a `data` payload plus a list of child dictionaries. -/
inductive DTree where
  | node (data : Int) (children : List DTree)

mutual

def DTree.size : DTree → Nat
  | .node _ cs => 1 + sizeList cs

def sizeList : List DTree → Nat
  | [] => 0
  | c :: rest => DTree.size c + sizeList rest

end

mutual

def DTree.depth : DTree → Nat
  | .node _ cs => 1 + depthList cs

def depthList : List DTree → Nat
  | [] => 0
  | c :: rest => max (DTree.depth c) (depthList rest)

end

/-- Sequence a per-element option-valued function over a list (the list
comprehension or eager `map` of the source, which dies when any element does). -/
def treeListM (f : Nat → Option DTree) : List Nat → Option (List DTree)
  | [] => some []
  | c :: rest =>
    match f c, treeListM f rest with
    | some t, some ts => some (t :: ts)
    | _, _ => none

/-- `_convert` of `helpers.to_dict_from_node` (with the identity converter):
recursively emit the payload and the converted children.  The recursion of the
source has no termination guard; `fuel` bounds the depth, `none` meaning the
recursion would not have returned within it. -/
def toTreeFuel : Nat → Graph → Nat → Option DTree
  | 0, _, _ => none
  | f + 1, g, n =>
    match treeListM (toTreeFuel f g) (sortedList (g.dirItems FORWARD n)) with
    | none => none
    | some ts => some (.node (g.dataMap n) ts)

/-- `helpers.to_dict_from_node`: one dictionary per root (`roots or [node]`). -/
def to_dict_from_node (f : Nat) (g : Graph) (n : Nat) : Option (List DTree) :=
  treeListM (toTreeFuel f g)
    (if sortedList (roots_for_node g n) = [] then [n]
     else sortedList (roots_for_node g n))

/-- The child-cloning loop of `helpers.clone_subtree`
(`map(clone_subtree, node.children)`), threading the heap. -/
def cloneKids (cl : Graph → Nat → Option (Graph × Nat)) (g : Graph) :
    List Nat → Option (Graph × List Nat)
  | [] => some (g, [])
  | c :: rest =>
    match cl g c with
    | none => none
    | some p =>
      match cloneKids cl p.1 rest with
      | none => none
      | some q => some (q.1, p.2 :: q.2)

/-- `helpers.clone_subtree`: clone every child, then construct a fresh node with
the original payload and the cloned children (`Node(node.data, children=...)`).
The source recursion has no visited set; `fuel` bounds the depth. -/
def cloneFuel : Nat → Graph → Nat → Option (Graph × Nat)
  | 0, _, _ => none
  | f + 1, g, n =>
    match cloneKids (cloneFuel f) g (sortedList (g.dirItems FORWARD n)) with
    | none => none
    | some p => some (newNode p.1 (g.dataMap n) [] p.2)

mutual

/-- `_build_tree` of `helpers.from_dict` (identity converter): construct the
node, then build each child dictionary and `add` it to the children set. -/
def build_tree (g : Graph) : DTree → Graph × Nat
  | .node d cs => build_children (newNode g d [] []).1 (newNode g d [] []).2 cs

/-- The `for child_struct in struct.get('children')` loop of `_build_tree`. -/
def build_children (g : Graph) (id : Nat) : List DTree → Graph × Nat
  | [] => (g, id)
  | c :: rest =>
    build_children (nsAdd (build_tree g c).1 id FORWARD (build_tree g c).2) id rest

end

/-! ## Heap-evolution lemmas for clone / to_dict / from_dict -/

theorem dirItems_congr_CE (g : Graph) (E : Finset (Nat × Nat)) (d : Int) (m : Nat)
    (hE : ∀ w, (m, w) ∈ E ↔ (m, w) ∈ g.childEdges) :
    ({ g with childEdges := E } : Graph).dirItems d m = g.dirItems d m := by
  ext w
  rw [mem_dirItems, mem_dirItems]
  by_cases hd : d = BACKWARD
  · rw [if_pos hd, if_pos hd]
  · rw [if_neg hd, if_neg hd]
    exact hE w

theorem dirItems_congr_PE (g : Graph) (E : Finset (Nat × Nat)) (d : Int) (m : Nat)
    (hE : ∀ w, (m, w) ∈ E ↔ (m, w) ∈ g.parentEdges) :
    ({ g with parentEdges := E } : Graph).dirItems d m = g.dirItems d m := by
  ext w
  rw [mem_dirItems, mem_dirItems]
  by_cases hd : d = BACKWARD
  · rw [if_pos hd, if_pos hd]
    exact hE w
  · rw [if_neg hd, if_neg hd]

theorem dirItems_lt_of_bounded {g : Graph} (hb : Bounded g) {d : Int} {n c : Nat}
    (hc : c ∈ g.dirItems d n) : c < g.nextId := by
  rw [mem_dirItems] at hc
  by_cases hd : d = BACKWARD
  · rw [if_pos hd] at hc
    exact (hb.2 (n, c) hc).2
  · rw [if_neg hd] at hc
    exact (hb.1 (n, c) hc).2

theorem sortedList_eq_of_sorted {l : List Nat} (hs : l.Sorted (· < ·)) :
    sortedList l.toFinset = l := by
  refine List.eq_of_perm_of_sorted
    (List.perm_of_nodup_nodup_toFinset_eq (sortedList_nodup _) hs.nodup ?_)
    (sortedList_sorted _) hs
  rw [sortedList_toFinset]

theorem treeListM_congr {f1 f2 : Nat → Option DTree} :
    ∀ {cs : List Nat}, (∀ c ∈ cs, f1 c = f2 c) →
      treeListM f1 cs = treeListM f2 cs := by
  intro cs
  induction cs with
  | nil => intro _; rfl
  | cons c rest ih =>
    intro h
    unfold treeListM
    rw [h c (List.mem_cons_self c rest), ih (fun x hx => h x (List.mem_cons_of_mem c hx))]

/-- Heaps agreeing on forward adjacency and payloads below `k`. -/
def FwdFrozenBelow (g g' : Graph) (k : Nat) : Prop :=
  ∀ m, m < k →
    g'.dirItems FORWARD m = g.dirItems FORWARD m ∧ g'.dataMap m = g.dataMap m

/-- Heaps agreeing on all adjacency below `k`. -/
def EdgesFrozenBelow (g g' : Graph) (k : Nat) : Prop :=
  ∀ d m, m < k → g'.dirItems d m = g.dirItems d m

/-- `_convert` reads only forward adjacency and payloads of nodes below the
allocation counter, so it is unaffected by mutations frozen below it. -/
theorem toTreeFuel_stable :
    ∀ (f : Nat) (g g' : Graph) (n : Nat), Bounded g → n < g.nextId →
      FwdFrozenBelow g g' g.nextId → toTreeFuel f g' n = toTreeFuel f g n := by
  intro f
  induction f with
  | zero => intro g g' n _ _ _; rfl
  | succ f ih =>
    intro g g' n hb hn hfr
    unfold toTreeFuel
    rw [(hfr n hn).1, (hfr n hn).2]
    rw [treeListM_congr (fun c hc => ih g g' c hb
      (dirItems_lt_of_bounded hb ((mem_sortedList _ c).mp hc)) hfr)]

theorem nsUpdate_fwd_edges (id : Nat) :
    ∀ (rs : List Nat) (g : Graph), rs.Nodup →
      (∀ v ∈ rs, v ∉ g.dirItems FORWARD id) →
      (nsUpdate g id FORWARD rs).nextId = g.nextId ∧
      (nsUpdate g id FORWARD rs).dataMap = g.dataMap ∧
      (∀ e, e ∈ (nsUpdate g id FORWARD rs).childEdges ↔
        e ∈ g.childEdges ∨ ∃ c ∈ rs, e = (id, c)) ∧
      (∀ e, e ∈ (nsUpdate g id FORWARD rs).parentEdges ↔
        e ∈ g.parentEdges ∨ ∃ c ∈ rs, e = (c, id)) := by
  intro rs
  induction rs with
  | nil =>
    intro g _ _
    exact ⟨rfl, rfl, fun e => by simp [nsUpdate], fun e => by simp [nsUpdate]⟩
  | cons v rest ih =>
    intro g hnodup hdisj
    have hv : v ∉ g.dirItems FORWARD id := hdisj v (List.mem_cons_self v rest)
    have hstep : nsUpdate g id FORWARD (v :: rest) =
        nsUpdate (nsAdd g id FORWARD v) id FORWARD rest := rfl
    have hadd : nsAdd g id FORWARD v =
        { g with childEdges := insert (id, v) g.childEdges,
                 parentEdges := insert (v, id) g.parentEdges } := by
      rw [nsAdd_fwd, if_neg hv]
    obtain ⟨hvrest, hnodup2⟩ := List.nodup_cons.mp hnodup
    have hdisj2 : ∀ w ∈ rest, w ∉ (nsAdd g id FORWARD v).dirItems FORWARD id := by
      intro w hw hmem
      rw [hadd, mem_dirItems_fwd] at hmem
      rcases Finset.mem_insert.mp hmem with heq | hmem
      · have : w = v := congrArg Prod.snd heq
        rw [this] at hw
        exact hvrest hw
      · exact hdisj w (List.mem_cons_of_mem v hw) ((mem_dirItems_fwd g id w).mpr hmem)
    obtain ⟨h1, h2, h3, h4⟩ := ih (nsAdd g id FORWARD v) hnodup2 hdisj2
    rw [hstep]
    refine ⟨by rw [h1, hadd], by rw [h2, hadd], ?_, ?_⟩
    · intro e
      rw [h3 e, hadd]
      simp only [Finset.mem_insert, List.mem_cons]
      constructor
      · rintro ((he | he) | ⟨c, hc, he⟩)
        · exact Or.inr ⟨v, Or.inl rfl, he⟩
        · exact Or.inl he
        · exact Or.inr ⟨c, Or.inr hc, he⟩
      · rintro (he | ⟨c, hc | hc, he⟩)
        · exact Or.inl (Or.inr he)
        · rw [hc] at he
          exact Or.inl (Or.inl he)
        · exact Or.inr ⟨c, hc, he⟩
    · intro e
      rw [h4 e, hadd]
      simp only [Finset.mem_insert, List.mem_cons]
      constructor
      · rintro ((he | he) | ⟨c, hc, he⟩)
        · exact Or.inr ⟨v, Or.inl rfl, he⟩
        · exact Or.inl he
        · exact Or.inr ⟨c, Or.inr hc, he⟩
      · rintro (he | ⟨c, hc | hc, he⟩)
        · exact Or.inl (Or.inr he)
        · rw [hc] at he
          exact Or.inl (Or.inl he)
        · exact Or.inr ⟨c, hc, he⟩

theorem newNode_spec (g : Graph) (data : Int) (rs : List Nat) (hb : Bounded g)
    (hnodup : rs.Nodup) (hlt : ∀ c ∈ rs, c < g.nextId) :
    (newNode g data [] rs).2 = g.nextId ∧
    (newNode g data [] rs).1.nextId = g.nextId + 1 ∧
    Bounded (newNode g data [] rs).1 ∧
    (newNode g data [] rs).1.dataMap g.nextId = data ∧
    (∀ m, m ≠ g.nextId → (newNode g data [] rs).1.dataMap m = g.dataMap m) ∧
    (newNode g data [] rs).1.dirItems FORWARD g.nextId = rs.toFinset ∧
    (newNode g data [] rs).1.dirItems BACKWARD g.nextId = ∅ ∧
    (∀ d m, m ≠ g.nextId → m ∉ rs →
      (newNode g data [] rs).1.dirItems d m = g.dirItems d m) ∧
    (∀ c ∈ rs, (newNode g data [] rs).1.dirItems BACKWARD c =
      insert g.nextId (g.dirItems BACKWARD c)) ∧
    (∀ c ∈ rs, (newNode g data [] rs).1.dirItems FORWARD c =
      g.dirItems FORWARD c) := by
  have hpdef : newNode g data [] rs =
      (nsUpdate
        ⟨g.nextId + 1, g.childEdges, g.parentEdges,
          fun m => if m = g.nextId then data else g.dataMap m⟩
        g.nextId FORWARD rs, g.nextId) := rfl
  have hdisj : ∀ v ∈ rs, v ∉
      (⟨g.nextId + 1, g.childEdges, g.parentEdges,
        fun m => if m = g.nextId then data else g.dataMap m⟩ : Graph).dirItems
        FORWARD (g.nextId) := by
    intro v _ hmem
    rw [mem_dirItems_fwd] at hmem
    exact absurd (hb.1 _ hmem).1 (lt_irrefl g.nextId)
  obtain ⟨h1, h2, h3, h4⟩ := nsUpdate_fwd_edges g.nextId rs _ hnodup hdisj
  rw [hpdef]
  simp only at h1 h2 h3 h4 ⊢
  refine ⟨trivial, by rw [h1], ?_, by rw [h2]; simp, by
      intro m hm
      rw [h2]
      simp [hm], ?_, ?_, ?_, ?_, ?_⟩
  · -- Bounded
    constructor
    · intro e he
      rcases (h3 e).mp he with he | ⟨c, hc, he⟩
      · have := hb.1 e he
        rw [h1]
        omega
      · rw [he, h1]
        have := hlt c hc
        constructor
        · omega
        · omega
    · intro e he
      rcases (h4 e).mp he with he | ⟨c, hc, he⟩
      · have := hb.2 e he
        rw [h1]
        omega
      · rw [he, h1]
        have := hlt c hc
        constructor
        · omega
        · omega
  · -- children of the new node are exactly rs
    ext w
    rw [mem_dirItems_fwd, List.mem_toFinset, h3]
    constructor
    · rintro (he | ⟨c, hc, he⟩)
      · exact absurd (hb.1 _ he).1 (lt_irrefl g.nextId)
      · have : w = c := congrArg Prod.snd he
        rw [this]
        exact hc
    · intro hw
      exact Or.inr ⟨w, hw, rfl⟩
  · -- the new node has no parents
    ext w
    rw [mem_dirItems_bwd, h4]
    simp only [Finset.not_mem_empty, iff_false]
    rintro (he | ⟨c, hc, he⟩)
    · exact absurd (hb.2 _ he).1 (lt_irrefl g.nextId)
    · have hcid : c = g.nextId := (congrArg Prod.fst he).symm
      rw [hcid] at hc
      exact absurd (hlt _ hc) (lt_irrefl g.nextId)
  · -- other nodes keep their adjacency
    intro d m hm hmrs
    ext w
    rw [mem_dirItems, mem_dirItems]
    by_cases hd : d = BACKWARD
    · rw [if_pos hd, if_pos hd, h4]
      constructor
      · rintro (he | ⟨c, hc, he⟩)
        · exact he
        · have : m = c := congrArg Prod.fst he
          rw [this] at hmrs
          exact absurd hc hmrs
      · exact fun he => Or.inl he
    · rw [if_neg hd, if_neg hd, h3]
      constructor
      · rintro (he | ⟨c, hc, he⟩)
        · exact he
        · have : m = g.nextId := congrArg Prod.fst he
          exact absurd this hm
      · exact fun he => Or.inl he
  · -- each c in rs gains the new node as parent
    intro c hc
    ext w
    rw [mem_dirItems_bwd, h4, Finset.mem_insert, mem_dirItems_bwd]
    constructor
    · rintro (he | ⟨c2, hc2, he⟩)
      · exact Or.inr he
      · have : w = g.nextId := congrArg Prod.snd he
        exact Or.inl this
    · rintro (hw | hw)
      · rw [hw]
        exact Or.inr ⟨c, hc, rfl⟩
      · exact Or.inl hw
  · -- each c in rs keeps its children
    intro c hc
    ext w
    rw [mem_dirItems_fwd, h3, mem_dirItems_fwd]
    constructor
    · rintro (he | ⟨c2, hc2, he⟩)
      · exact he
      · have : c = g.nextId := congrArg Prod.fst he
        exact absurd (hlt c hc) (by rw [this]; exact lt_irrefl g.nextId)
    · exact fun he => Or.inl he

theorem sorted_lt_nodup {l : List Nat} (hs : l.Sorted (· < ·)) : l.Nodup :=
  hs.imp (fun h => Nat.ne_of_lt h)

theorem sizeList_cons (t : DTree) (ts : List DTree) :
    sizeList (t :: ts) = t.size + sizeList ts := rfl

theorem size_node (d : Int) (ts : List DTree) :
    DTree.size (.node d ts) = 1 + sizeList ts := rfl


/-- Main correctness of `clone_subtree` relative to the structural unfolding
`toTreeFuel`: whenever the unfolding of `n` succeeds within the fuel, cloning
succeeds with the same fuel, allocates exactly one fresh node per node of the
unfolding, leaves every pre-existing node's adjacency and payload untouched,
gives the cloned root an empty parents-set, and the clone unfolds to the very
same tree (same payloads, same shape). -/
theorem clone_main : ∀ f : Nat,
    (∀ (g : Graph) (n : Nat) (t : DTree), Bounded g → toTreeFuel f g n = some t →
      ∃ g2 r, cloneFuel f g n = some (g2, r) ∧ Bounded g2 ∧
        g2.nextId = g.nextId + t.size ∧ r + 1 = g2.nextId ∧ g.nextId ≤ r ∧
        EdgesFrozenBelow g g2 g.nextId ∧
        (∀ m, m < g.nextId → g2.dataMap m = g.dataMap m) ∧
        g2.dirItems BACKWARD r = ∅ ∧
        toTreeFuel f g2 r = some t) ∧
    (∀ (g : Graph) (cs : List Nat) (ts : List DTree), Bounded g →
      treeListM (toTreeFuel f g) cs = some ts → (∀ c ∈ cs, c < g.nextId) →
      ∃ g2 rs, cloneKids (cloneFuel f) g cs = some (g2, rs) ∧ Bounded g2 ∧
        g2.nextId = g.nextId + sizeList ts ∧
        (∀ r ∈ rs, g.nextId ≤ r ∧ r < g2.nextId) ∧
        rs.Sorted (· < ·) ∧
        EdgesFrozenBelow g g2 g.nextId ∧
        (∀ m, m < g.nextId → g2.dataMap m = g.dataMap m) ∧
        treeListM (toTreeFuel f g2) rs = some ts) := by
  intro f
  induction f with
  | zero =>
    constructor
    · intro g n t _ ht
      rw [toTreeFuel] at ht
      simp at ht
    · intro g cs ts hb ht _
      cases cs with
      | nil =>
        rw [treeListM] at ht
        simp only [Option.some.injEq] at ht
        refine ⟨g, [], rfl, hb, by rw [← ht]; rfl, by simp, List.sorted_nil,
          fun d m _ => rfl, fun m _ => rfl, by rw [← ht]; rfl⟩
      | cons c rest =>
        rw [treeListM, toTreeFuel] at ht
        simp at ht
  | succ f ih =>
    obtain ⟨ih1, ih2⟩ := ih
    have partA : ∀ (g : Graph) (n : Nat) (t : DTree), Bounded g →
        toTreeFuel (f + 1) g n = some t →
        ∃ g2 r, cloneFuel (f + 1) g n = some (g2, r) ∧ Bounded g2 ∧
          g2.nextId = g.nextId + t.size ∧ r + 1 = g2.nextId ∧ g.nextId ≤ r ∧
          EdgesFrozenBelow g g2 g.nextId ∧
          (∀ m, m < g.nextId → g2.dataMap m = g.dataMap m) ∧
          g2.dirItems BACKWARD r = ∅ ∧
          toTreeFuel (f + 1) g2 r = some t := by
      intro g n t hb ht
      rw [toTreeFuel] at ht
      cases hts : treeListM (toTreeFuel f g) (sortedList (g.dirItems FORWARD n)) with
      | none => rw [hts] at ht; simp at ht
      | some ts =>
        rw [hts] at ht
        simp only [Option.some.injEq] at ht
        have hcslt : ∀ c ∈ sortedList (g.dirItems FORWARD n), c < g.nextId :=
          fun c hc => dirItems_lt_of_bounded hb ((mem_sortedList _ c).mp hc)
        obtain ⟨g2, rs, hclone, hb2, hnext2, hrs, hsorted, hfz2, hdata2, hts2⟩ :=
          ih2 g (sortedList (g.dirItems FORWARD n)) ts hb hts hcslt
        obtain ⟨hsp1, hsp2, hsp3, hsp4, hsp5, hsp6, hsp7, hsp8, hsp9, hsp10⟩ :=
          newNode_spec g2 (g.dataMap n) rs hb2 (sorted_lt_nodup hsorted)
            (fun c hc => (hrs c hc).2)
        have hfwd23 : FwdFrozenBelow g2 (newNode g2 (g.dataMap n) [] rs).1
            g2.nextId := by
          intro m hm
          by_cases hmrs : m ∈ rs
          · exact ⟨hsp10 m hmrs, hsp5 m (Nat.ne_of_lt hm)⟩
          · exact ⟨hsp8 FORWARD m (Nat.ne_of_lt hm) hmrs, hsp5 m (Nat.ne_of_lt hm)⟩
        have hstable : treeListM (toTreeFuel f (newNode g2 (g.dataMap n) [] rs).1) rs =
            treeListM (toTreeFuel f g2) rs :=
          treeListM_congr (fun c hc =>
            toTreeFuel_stable f g2 _ c hb2 (hrs c hc).2 hfwd23)
        refine ⟨(newNode g2 (g.dataMap n) [] rs).1, g2.nextId, ?_, hsp3, ?_, ?_, ?_,
          ?_, ?_, hsp7, ?_⟩
        · rw [cloneFuel, hclone, ← hsp1]
        · rw [hsp2, hnext2, ← ht, size_node]
          omega
        · rw [hsp2]
        · rw [hnext2]
          omega
        · intro d m hm
          rw [hsp8 d m (by omega) (fun hmem => by have := (hrs m hmem).1; omega)]
          exact hfz2 d m hm
        · intro m hm
          rw [hsp5 m (by omega)]
          exact hdata2 m hm
        · rw [toTreeFuel, hsp6, sortedList_eq_of_sorted hsorted, hstable, hts2,
            hsp4, ← ht]
    have partB : ∀ (g : Graph) (cs : List Nat) (ts : List DTree), Bounded g →
        treeListM (toTreeFuel (f + 1) g) cs = some ts → (∀ c ∈ cs, c < g.nextId) →
        ∃ g2 rs, cloneKids (cloneFuel (f + 1)) g cs = some (g2, rs) ∧ Bounded g2 ∧
          g2.nextId = g.nextId + sizeList ts ∧
          (∀ r ∈ rs, g.nextId ≤ r ∧ r < g2.nextId) ∧
          rs.Sorted (· < ·) ∧
          EdgesFrozenBelow g g2 g.nextId ∧
          (∀ m, m < g.nextId → g2.dataMap m = g.dataMap m) ∧
          treeListM (toTreeFuel (f + 1) g2) rs = some ts := by
      intro g cs
      induction cs generalizing g with
      | nil =>
        intro ts hb ht _
        rw [treeListM] at ht
        simp only [Option.some.injEq] at ht
        refine ⟨g, [], rfl, hb, by rw [← ht]; rfl, by simp, List.sorted_nil,
          fun d m _ => rfl, fun m _ => rfl, by rw [← ht]; rfl⟩
      | cons c rest ihrest =>
        intro ts hb ht hlt
        rw [treeListM] at ht
        cases ht1 : toTreeFuel (f + 1) g c with
        | none => rw [ht1] at ht; simp at ht
        | some t1 =>
          rw [ht1] at ht
          cases htrest : treeListM (toTreeFuel (f + 1) g) rest with
          | none => rw [htrest] at ht; simp at ht
          | some ts1 =>
            rw [htrest] at ht
            simp only [Option.some.injEq] at ht
            obtain ⟨g2, r1, hclone1, hb2, hnext2, hr1next, hr1ge, hfz2, hdata2,
              hpar, htree2⟩ := partA g c t1 hb ht1
            have hfwd12 : FwdFrozenBelow g g2 g.nextId :=
              fun m hm => ⟨hfz2 FORWARD m hm, hdata2 m hm⟩
            have htrest2 : treeListM (toTreeFuel (f + 1) g2) rest = some ts1 := by
              rw [treeListM_congr (fun x hx => toTreeFuel_stable (f + 1) g g2 x hb
                (hlt x (List.mem_cons_of_mem c hx)) hfwd12)]
              exact htrest
            obtain ⟨g3, rs1, hkids, hb3, hnext3, hrs1, hsorted1, hfz3, hdata3,
              hts3⟩ := ihrest g2 ts1 hb2 htrest2
              (fun x hx => lt_of_lt_of_le (hlt x (List.mem_cons_of_mem c hx))
                (by omega))
            have hfwd23 : FwdFrozenBelow g2 g3 g2.nextId :=
              fun m hm => ⟨hfz3 FORWARD m hm, hdata3 m hm⟩
            refine ⟨g3, r1 :: rs1, ?_, hb3, ?_, ?_, ?_, ?_, ?_, ?_⟩
            · rw [cloneKids, hclone1]
              show (match cloneKids (cloneFuel (f + 1)) g2 rest with
                | none => none
                | some q => some (q.1, r1 :: q.2)) = some (g3, r1 :: rs1)
              rw [hkids]
            · rw [hnext3, hnext2, ← ht, sizeList_cons]
              omega
            · intro r hr
              rcases List.mem_cons.mp hr with hr | hr
              · rw [hr]
                constructor
                · exact hr1ge
                · omega
              · have := hrs1 r hr
                constructor
                · omega
                · omega
            · refine List.sorted_cons.mpr ⟨?_, hsorted1⟩
              intro b hb2mem
              have := hrs1 b hb2mem
              omega
            · intro d m hm
              rw [hfz3 d m (by omega)]
              exact hfz2 d m hm
            · intro m hm
              rw [hdata3 m (by omega)]
              exact hdata2 m hm
            · rw [← ht, treeListM]
              have ht1g3 : toTreeFuel (f + 1) g3 r1 = some t1 := by
                rw [toTreeFuel_stable (f + 1) g2 g3 r1 hb2 (by omega) hfwd23]
                exact htree2
              rw [ht1g3, hts3]
    exact ⟨partA, partB⟩

/-! ## from_dict / round-trip machinery (C5) -/

theorem depth_node (d : Int) (cs : List DTree) :
    DTree.depth (.node d cs) = 1 + depthList cs := rfl

theorem depthList_cons (c : DTree) (cs : List DTree) :
    depthList (c :: cs) = max c.depth (depthList cs) := rfl

/-- Forward edges of every node at or above `lo` stay in `[lo, nextId)`. -/
def FwdSegClosed (g : Graph) (lo : Nat) : Prop :=
  ∀ m c, lo ≤ m → c ∈ g.dirItems FORWARD m → lo ≤ c ∧ c < g.nextId

/-- Stability of `_convert` on a forward-closed segment: mutations outside the
segment `[lo, g.nextId)` do not change the unfolding of a node inside it. -/
theorem toTreeFuel_stable_seg :
    ∀ (f : Nat) (g g' : Graph) (r lo : Nat), FwdSegClosed g lo →
      lo ≤ r → r < g.nextId →
      (∀ m, lo ≤ m → m < g.nextId →
        g'.dirItems FORWARD m = g.dirItems FORWARD m ∧ g'.dataMap m = g.dataMap m) →
      toTreeFuel f g' r = toTreeFuel f g r := by
  intro f
  induction f with
  | zero => intro g g' r lo _ _ _ _; rfl
  | succ f ih =>
    intro g g' r lo hseg hlo hr hfr
    unfold toTreeFuel
    rw [(hfr r hlo hr).1, (hfr r hlo hr).2]
    rw [treeListM_congr (fun c hc => ih g g' c lo hseg
      (hseg r c hlo ((mem_sortedList _ c).mp hc)).1
      (hseg r c hlo ((mem_sortedList _ c).mp hc)).2 hfr)]

theorem nsAdd_fwd_fresh_dirItems (g : Graph) (id rc : Nat)
    (hfree : rc ∉ g.dirItems FORWARD id) :
    (nsAdd g id FORWARD rc).nextId = g.nextId ∧
    (nsAdd g id FORWARD rc).dataMap = g.dataMap ∧
    (nsAdd g id FORWARD rc).dirItems FORWARD id =
      insert rc (g.dirItems FORWARD id) ∧
    (∀ m, m ≠ id → (nsAdd g id FORWARD rc).dirItems FORWARD m =
      g.dirItems FORWARD m) ∧
    (∀ m, m ≠ rc → (nsAdd g id FORWARD rc).dirItems BACKWARD m =
      g.dirItems BACKWARD m) ∧
    (nsAdd g id FORWARD rc).dirItems BACKWARD rc =
      insert id (g.dirItems BACKWARD rc) := by
  rw [nsAdd_fwd, if_neg hfree]
  refine ⟨rfl, rfl, ?_, ?_, ?_, ?_⟩
  · ext w
    simp only [mem_dirItems_fwd, Finset.mem_insert, Prod.mk.injEq]
    constructor
    · rintro (⟨h1, h2⟩ | he)
      · exact Or.inl h2
      · exact Or.inr he
    · rintro (hw | hw)
      · exact Or.inl ⟨trivial, hw⟩
      · exact Or.inr hw
  · intro m hm
    ext w
    simp only [mem_dirItems_fwd, Finset.mem_insert, Prod.mk.injEq]
    constructor
    · rintro (⟨h1, h2⟩ | he)
      · exact absurd h1 hm
      · exact he
    · exact fun hw => Or.inr hw
  · intro m hm
    ext w
    simp only [mem_dirItems_bwd, Finset.mem_insert, Prod.mk.injEq]
    constructor
    · rintro (⟨h1, h2⟩ | he)
      · exact absurd h1 hm
      · exact he
    · exact fun hw => Or.inr hw
  · ext w
    simp only [mem_dirItems_bwd, Finset.mem_insert, Prod.mk.injEq]
    constructor
    · rintro (⟨h1, h2⟩ | he)
      · exact Or.inl h2
      · exact Or.inr he
    · rintro (hw | hw)
      · exact Or.inl ⟨trivial, hw⟩
      · exact Or.inr hw

theorem nsAdd_fwd_fresh_bounded (g : Graph) (id rc : Nat)
    (hfree : rc ∉ g.dirItems FORWARD id) (hb : Bounded g)
    (hid : id < g.nextId) (hrc : rc < g.nextId) :
    Bounded (nsAdd g id FORWARD rc) := by
  rw [nsAdd_fwd, if_neg hfree]
  constructor
  · intro e he
    rcases Finset.mem_insert.mp he with he | he
    · rw [he]
      exact ⟨hid, hrc⟩
    · exact hb.1 e he
  · intro e he
    rcases Finset.mem_insert.mp he with he | he
    · rw [he]
      exact ⟨hrc, hid⟩
    · exact hb.2 e he

theorem size_pos (dt : DTree) : 1 ≤ dt.size := by
  cases dt with
  | node d cs =>
    rw [size_node]
    omega

theorem dirItems_eq_cases (g : Graph) (d : Int) (m : Nat) :
    g.dirItems d m =
      if d = BACKWARD then g.dirItems BACKWARD m else g.dirItems FORWARD m := by
  by_cases hd : d = BACKWARD
  · rw [if_pos hd, hd]
  · rw [if_neg hd]
    unfold Graph.dirItems
    rw [if_neg hd, if_neg (by norm_num [FORWARD, BACKWARD])]

mutual

/-- Correctness of `_build_tree`: building a dictionary allocates one fresh node
per dictionary node, returns the root (the first id allocated), leaves all
pre-existing nodes untouched, keeps the new nodes' forward edges within the
fresh segment, and the built root unfolds back to the very dictionary. -/
theorem build_tree_main : ∀ (dt : DTree) (g : Graph), Bounded g →
    Bounded (build_tree g dt).1 ∧
    (build_tree g dt).2 = g.nextId ∧
    (build_tree g dt).1.nextId = g.nextId + dt.size ∧
    (∀ d2 m, m < g.nextId → (build_tree g dt).1.dirItems d2 m = g.dirItems d2 m) ∧
    (∀ m, m < g.nextId → (build_tree g dt).1.dataMap m = g.dataMap m) ∧
    FwdSegClosed (build_tree g dt).1 g.nextId ∧
    (∀ f, dt.depth ≤ f → toTreeFuel f (build_tree g dt).1 g.nextId = some dt)
  | .node d cs, g => by
    intro hb
    obtain ⟨hsp1, hsp2, hsp3, hsp4, hsp5, hsp6, hsp7, hsp8, _, _⟩ :=
      newNode_spec g d [] hb List.nodup_nil (by simp)
    have hbdef : ∀ z : Graph × Nat,
        build_tree g (.node d cs) = build_children (newNode g d [] []).1
          (newNode g d [] []).2 cs := fun _ => rfl
    rw [show build_tree g (.node d cs) = build_children (newNode g d [] []).1
      (newNode g d [] []).2 cs from rfl, hsp1]
    have hidlt : g.nextId < (newNode g d [] []).1.nextId := by
      rw [hsp2]
      omega
    obtain ⟨hb3, hid3, hn3, hfz3, hbk3, hd3, hseg3, rs, hsort, hbnd, hfwd3, htl3⟩ :=
      build_children_main cs (newNode g d [] []).1 g.nextId hsp3 hidlt
    have hchild : (build_children (newNode g d [] []).1 g.nextId cs).1.dirItems
        FORWARD g.nextId = rs.toFinset := by
      rw [hfwd3, hsp6]
      simp
    refine ⟨hb3, hid3, ?_, ?_, ?_, ?_, ?_⟩
    · rw [hn3, hsp2, size_node]
      omega
    · intro d2 m hm
      rw [hfz3 d2 m (by omega) (by omega), dirItems_eq_cases _ d2 m,
        dirItems_eq_cases g d2 m]
      by_cases hd2 : d2 = BACKWARD
      · rw [if_pos hd2, if_pos hd2, hsp8 BACKWARD m (by omega) (by simp)]
      · rw [if_neg hd2, if_neg hd2, hsp8 FORWARD m (by omega) (by simp)]
    · intro m hm
      rw [hd3 m (by omega), hsp5 m (by omega)]
    · -- forward edges of the fresh segment stay in the fresh segment
      intro m c2 hm hc2
      by_cases hmid : m = g.nextId
      · rw [hmid, hchild] at hc2
        have := hbnd c2 (List.mem_toFinset.mp hc2)
        constructor
        · omega
        · exact this.2
      · have hm2 : (newNode g d [] []).1.nextId ≤ m := by
          rw [hsp2]
          omega
        have := hseg3 m c2 hm2 hc2
        constructor
        · omega
        · exact this.2
    · intro f hf
      rw [depth_node] at hf
      cases f with
      | zero => omega
      | succ f2 =>
        rw [toTreeFuel, hchild, sortedList_eq_of_sorted hsort,
          htl3 f2 (by omega), hd3 g.nextId (by omega), hsp4]

theorem build_children_main : ∀ (cs : List DTree) (g : Graph) (id : Nat),
    Bounded g → id < g.nextId →
    Bounded (build_children g id cs).1 ∧
    (build_children g id cs).2 = id ∧
    (build_children g id cs).1.nextId = g.nextId + sizeList cs ∧
    (∀ d2 m, m < g.nextId → m ≠ id →
      (build_children g id cs).1.dirItems d2 m = g.dirItems d2 m) ∧
    ((build_children g id cs).1.dirItems BACKWARD id =
      g.dirItems BACKWARD id) ∧
    (∀ m, m < g.nextId → (build_children g id cs).1.dataMap m = g.dataMap m) ∧
    FwdSegClosed (build_children g id cs).1 g.nextId ∧
    (∃ rs : List Nat, rs.Sorted (· < ·) ∧
      (∀ r ∈ rs, g.nextId ≤ r ∧ r < (build_children g id cs).1.nextId) ∧
      (build_children g id cs).1.dirItems FORWARD id =
        g.dirItems FORWARD id ∪ rs.toFinset ∧
      (∀ f, depthList cs ≤ f →
        treeListM (toTreeFuel f (build_children g id cs).1) rs = some cs))
  | [], g, id => by
    intro hb _
    refine ⟨hb, rfl, rfl, fun d2 m _ _ => rfl,
      rfl, fun m _ => rfl, ?_, [], List.sorted_nil, by simp,
      by rw [show (build_children g id []).1 = g from rfl]; simp, fun f _ => rfl⟩
    intro m c2 hm hc2
    rw [mem_dirItems_fwd] at hc2
    have := hb.1 _ hc2
    omega
  | c :: rest, g, id => by
    intro hb hid
    obtain ⟨hbc, hrc, hnc, hfzc, hdc, hsegc, htreec⟩ := build_tree_main c g hb
    have hfree : (build_tree g c).2 ∉ (build_tree g c).1.dirItems FORWARD id := by
      rw [hrc, hfzc FORWARD id hid]
      intro hmem
      rw [mem_dirItems_fwd] at hmem
      have := hb.1 _ hmem
      omega
    obtain ⟨ha1, ha2, ha3, ha4, ha5, ha6⟩ :=
      nsAdd_fwd_fresh_dirItems (build_tree g c).1 id (build_tree g c).2 hfree
    have hsize1 : 1 ≤ c.size := size_pos c
    have hbg2 : Bounded (nsAdd (build_tree g c).1 id FORWARD (build_tree g c).2) :=
      nsAdd_fwd_fresh_bounded _ id _ hfree hbc (by omega) (by rw [hrc]; omega)
    have hidlt2 : id <
        (nsAdd (build_tree g c).1 id FORWARD (build_tree g c).2).nextId := by
      rw [ha1]
      omega
    obtain ⟨hb3, hid3, hn3, hfz3, hbk3, hd3, hseg3, rs2, hsort2, hbnd2, hfwd3,
      htl3⟩ := build_children_main rest
        (nsAdd (build_tree g c).1 id FORWARD (build_tree g c).2) id hbg2 hidlt2
    have hstep : build_children g id (c :: rest) =
        build_children (nsAdd (build_tree g c).1 id FORWARD (build_tree g c).2)
          id rest := rfl
    rw [hstep]
    have hg2next :
        (nsAdd (build_tree g c).1 id FORWARD (build_tree g c).2).nextId =
          g.nextId + c.size := by
      rw [ha1, hnc]
    -- adjacency of a pre-existing node other than the owner is untouched
    have hfz12 : ∀ d2 m, m < g.nextId → m ≠ id →
        (nsAdd (build_tree g c).1 id FORWARD (build_tree g c).2).dirItems d2 m =
          g.dirItems d2 m := by
      intro d2 m hm hmne
      rw [dirItems_eq_cases _ d2 m, dirItems_eq_cases g d2 m]
      by_cases hd2 : d2 = BACKWARD
      · rw [if_pos hd2, if_pos hd2, ha5 m (by rw [hrc]; omega),
          hfzc BACKWARD m hm]
      · rw [if_neg hd2, if_neg hd2, ha4 m hmne, hfzc FORWARD m hm]
    refine ⟨hb3, hid3, ?_, ?_, ?_, ?_, ?_, ?_⟩
    · rw [hn3, hg2next, sizeList_cons]
      omega
    · intro d2 m hm hmne
      rw [hfz3 d2 m (by omega) hmne, hfz12 d2 m hm hmne]
    · rw [hbk3, ha5 id (by rw [hrc]; omega), hfzc BACKWARD id hid]
    · intro m hm
      rw [hd3 m (by omega), ha2, hdc m hm]
    · -- forward closure of the whole fresh segment
      intro m c2 hm hc2
      by_cases hm2 : (nsAdd (build_tree g c).1 id FORWARD
          (build_tree g c).2).nextId ≤ m
      · have := hseg3 m c2 hm2 hc2
        constructor
        · omega
        · exact this.2
      · have hmne : m ≠ id := by omega
        rw [hfz3 FORWARD m (by omega) hmne, ha4 m hmne] at hc2
        have := hsegc m c2 hm hc2
        constructor
        · exact this.1
        · rw [hn3]
          rw [hg2next] at hm2 ⊢
          omega
    · -- the collected child roots
      refine ⟨g.nextId :: rs2, ?_, ?_, ?_, ?_⟩
      · refine List.sorted_cons.mpr ⟨?_, hsort2⟩
        intro b hbmem
        have := (hbnd2 b hbmem).1
        rw [hg2next] at this
        omega
      · intro r hr
        rcases List.mem_cons.mp hr with hr | hr
        · rw [hr, hn3, hg2next]
          constructor
          · omega
          · have := size_pos c
            omega
        · have := hbnd2 r hr
          rw [hg2next] at this
          constructor
          · omega
          · omega
      · rw [hfwd3, ha3, hrc, hfzc FORWARD id hid, List.toFinset_cons,
          Finset.insert_union, Finset.union_insert]
      · intro f hf
        rw [depthList_cons] at hf
        have hstable : toTreeFuel f (build_children
            (nsAdd (build_tree g c).1 id FORWARD (build_tree g c).2) id rest).1
            g.nextId = toTreeFuel f (build_tree g c).1 g.nextId := by
          refine toTreeFuel_stable_seg f (build_tree g c).1 _ g.nextId g.nextId
            hsegc (le_refl _) (by rw [hnc]; omega) ?_
          intro m hmlo hmhi
          have hmne : m ≠ id := by omega
          constructor
          · rw [hfz3 FORWARD m (by rw [hg2next, ← hnc]; omega) hmne, ha4 m hmne]
          · rw [hd3 m (by rw [hg2next, ← hnc]; omega), ha2]
        rw [treeListM, hstable]
        have hhead : toTreeFuel f (build_tree g c).1 g.nextId = some c :=
          htreec f (by omega)
        rw [hhead, htl3 f (by omega)]

end

/-! ## Mutations confined to fresh nodes (clone independence, C2) -/

/-- An operation whose owner and affected nodes are all at least `k` (i.e., a
mutation among clone-allocated nodes when `k` is the pre-clone counter). -/
def OpAbove (k : Nat) : Op → Prop
  | .add o _ v => k ≤ o ∧ k ≤ v
  | .discard o _ v => k ≤ o ∧ k ≤ v
  | .update o _ vs => k ≤ o ∧ ∀ v ∈ vs, k ≤ v
  | .discardMany o _ vs => k ≤ o ∧ ∀ v ∈ vs, k ≤ v
  | .construct _ ps cs => (∀ p ∈ ps, k ≤ p) ∧ ∀ c ∈ cs, k ≤ c

theorem mem_pair_insert_ne {E : Finset (Nat × Nat)} {o v m : Nat} (hmo : m ≠ o)
    (w : Nat) : ((m, w) ∈ insert (o, v) E) ↔ (m, w) ∈ E := by
  rw [Finset.mem_insert]
  constructor
  · rintro (he | he)
    · exact absurd (congrArg Prod.fst he) hmo
    · exact he
  · exact fun he => Or.inr he

theorem mem_pair_erase_ne {E : Finset (Nat × Nat)} {o v m : Nat} (hmo : m ≠ o)
    (w : Nat) : ((m, w) ∈ E.erase (o, v)) ↔ (m, w) ∈ E := by
  rw [Finset.mem_erase]
  constructor
  · rintro ⟨_, he⟩
    exact he
  · intro he
    refine ⟨?_, he⟩
    intro hc
    exact hmo (congrArg Prod.fst hc)

theorem dirItems_nsAdd_above (g : Graph) (o v : Nat) (d : Int)
    (hd : d = FORWARD ∨ d = BACKWARD) (d2 : Int) (m : Nat) (hmo : m ≠ o)
    (hmv : m ≠ v) :
    (nsAdd g o d v).dirItems d2 m = g.dirItems d2 m := by
  have hcase : ∀ g' : Graph, g'.childEdges = g.childEdges →
      g'.parentEdges = g.parentEdges → g'.dirItems d2 m = g.dirItems d2 m := by
    intro g' h1 h2
    ext w
    rw [mem_dirItems, mem_dirItems, h1, h2]
  rcases hd with hd | hd <;> subst hd
  · rw [nsAdd_fwd]
    by_cases hm : v ∈ g.dirItems FORWARD o <;> simp only [hm, if_true, if_false] <;>
      ext w <;> rw [mem_dirItems, mem_dirItems] <;> by_cases hd2 : d2 = BACKWARD
    · rw [if_pos hd2, if_pos hd2]
    · rw [if_neg hd2, if_neg hd2]
      exact mem_pair_insert_ne hmo w
    · rw [if_pos hd2, if_pos hd2]
      exact mem_pair_insert_ne hmv w
    · rw [if_neg hd2, if_neg hd2]
      exact mem_pair_insert_ne hmo w
  · rw [nsAdd_bwd]
    by_cases hm : v ∈ g.dirItems BACKWARD o <;> simp only [hm, if_true, if_false] <;>
      ext w <;> rw [mem_dirItems, mem_dirItems] <;> by_cases hd2 : d2 = BACKWARD
    · rw [if_pos hd2, if_pos hd2]
      exact mem_pair_insert_ne hmo w
    · rw [if_neg hd2, if_neg hd2]
    · rw [if_pos hd2, if_pos hd2]
      exact mem_pair_insert_ne hmo w
    · rw [if_neg hd2, if_neg hd2]
      exact mem_pair_insert_ne hmv w

theorem dirItems_nsDiscard_above (g : Graph) (o v : Nat) (d : Int)
    (hd : d = FORWARD ∨ d = BACKWARD) (d2 : Int) (m : Nat) (hmo : m ≠ o)
    (hmv : m ≠ v) :
    (nsDiscard g o d v).dirItems d2 m = g.dirItems d2 m := by
  rcases hd with hd | hd <;> subst hd
  · rw [nsDiscard_fwd]
    by_cases hm : v ∈ g.dirItems FORWARD o <;> simp only [hm, if_true, if_false] <;>
      ext w <;> rw [mem_dirItems, mem_dirItems] <;> by_cases hd2 : d2 = BACKWARD
    · rw [if_pos hd2, if_pos hd2]
      exact mem_pair_erase_ne hmv w
    · rw [if_neg hd2, if_neg hd2]
      exact mem_pair_erase_ne hmo w
    · rw [if_pos hd2, if_pos hd2]
    · rw [if_neg hd2, if_neg hd2]
      exact mem_pair_erase_ne hmo w
  · rw [nsDiscard_bwd]
    by_cases hm : v ∈ g.dirItems BACKWARD o <;> simp only [hm, if_true, if_false] <;>
      ext w <;> rw [mem_dirItems, mem_dirItems] <;> by_cases hd2 : d2 = BACKWARD
    · rw [if_pos hd2, if_pos hd2]
      exact mem_pair_erase_ne hmo w
    · rw [if_neg hd2, if_neg hd2]
      exact mem_pair_erase_ne hmv w
    · rw [if_pos hd2, if_pos hd2]
      exact mem_pair_erase_ne hmo w
    · rw [if_neg hd2, if_neg hd2]

theorem insertDir_nextId (g : Graph) (d : Int) (o v : Nat) :
    (g.insertDir d o v).nextId = g.nextId := by
  unfold Graph.insertDir
  by_cases hd : d = BACKWARD
  · rw [if_pos hd]
  · rw [if_neg hd]

theorem eraseDir_nextId (g : Graph) (d : Int) (o v : Nat) :
    (g.eraseDir d o v).nextId = g.nextId := by
  unfold Graph.eraseDir
  by_cases hd : d = BACKWARD
  · rw [if_pos hd]
  · rw [if_neg hd]

theorem nsAdd_nextId (g : Graph) (o : Nat) (d : Int) (v : Nat) :
    (nsAdd g o d v).nextId = g.nextId := by
  show ((if v ∈ g.dirItems d o then g else g.insertDir (d * -1) v o).insertDir
    d o v).nextId = g.nextId
  rw [insertDir_nextId]
  by_cases hm : v ∈ g.dirItems d o
  · rw [if_pos hm]
  · rw [if_neg hm, insertDir_nextId]

theorem nsDiscard_nextId (g : Graph) (o : Nat) (d : Int) (v : Nat) :
    (nsDiscard g o d v).nextId = g.nextId := by
  show ((if v ∈ g.dirItems d o then g.eraseDir (d * -1) v o else g).eraseDir
    d o v).nextId = g.nextId
  rw [eraseDir_nextId]
  by_cases hm : v ∈ g.dirItems d o
  · rw [if_pos hm, eraseDir_nextId]
  · rw [if_neg hm]

theorem nsUpdate_nextId : ∀ (vs : List Nat) (g : Graph) (o : Nat) (d : Int),
    (nsUpdate g o d vs).nextId = g.nextId := by
  intro vs
  induction vs with
  | nil => intro g o d; rfl
  | cons v rest ih =>
    intro g o d
    rw [show nsUpdate g o d (v :: rest) = nsUpdate (nsAdd g o d v) o d rest from rfl,
      ih, nsAdd_nextId]

theorem nsDiscardMany_nextId : ∀ (vs : List Nat) (g : Graph) (o : Nat) (d : Int),
    (nsDiscardMany g o d vs).nextId = g.nextId := by
  intro vs
  induction vs with
  | nil => intro g o d; rfl
  | cons v rest ih =>
    intro g o d
    rw [show nsDiscardMany g o d (v :: rest) =
      nsDiscardMany (nsDiscard g o d v) o d rest from rfl, ih, nsDiscard_nextId]

theorem dirItems_nsUpdate_above (o : Nat) (d : Int)
    (hd : d = FORWARD ∨ d = BACKWARD) :
    ∀ (vs : List Nat) (g : Graph) (d2 : Int) (m : Nat), m ≠ o →
      (∀ v ∈ vs, m ≠ v) →
      (nsUpdate g o d vs).dirItems d2 m = g.dirItems d2 m := by
  intro vs
  induction vs with
  | nil => intro g d2 m _ _; rfl
  | cons v rest ih =>
    intro g d2 m hmo hmv
    rw [show nsUpdate g o d (v :: rest) = nsUpdate (nsAdd g o d v) o d rest from rfl,
      ih (nsAdd g o d v) d2 m hmo (fun x hx => hmv x (List.mem_cons_of_mem v hx)),
      dirItems_nsAdd_above g o v d hd d2 m hmo (hmv v (List.mem_cons_self v rest))]

theorem dirItems_nsDiscardMany_above (o : Nat) (d : Int)
    (hd : d = FORWARD ∨ d = BACKWARD) :
    ∀ (vs : List Nat) (g : Graph) (d2 : Int) (m : Nat), m ≠ o →
      (∀ v ∈ vs, m ≠ v) →
      (nsDiscardMany g o d vs).dirItems d2 m = g.dirItems d2 m := by
  intro vs
  induction vs with
  | nil => intro g d2 m _ _; rfl
  | cons v rest ih =>
    intro g d2 m hmo hmv
    rw [show nsDiscardMany g o d (v :: rest) =
      nsDiscardMany (nsDiscard g o d v) o d rest from rfl,
      ih (nsDiscard g o d v) d2 m hmo (fun x hx => hmv x (List.mem_cons_of_mem v hx)),
      dirItems_nsDiscard_above g o v d hd d2 m hmo (hmv v (List.mem_cons_self v rest))]

theorem dirOfSet_cases (b : Bool) :
    dirOfSet b = FORWARD ∨ dirOfSet b = BACKWARD := by
  cases b
  · exact Or.inl rfl
  · exact Or.inr rfl

theorem applyOp_above (k : Nat) (g : Graph) (op : Op) (hk : k ≤ g.nextId)
    (hop : OpAbove k op) :
    (∀ d2 m, m < k → (applyOp g op).dirItems d2 m = g.dirItems d2 m) ∧
    k ≤ (applyOp g op).nextId := by
  cases op with
  | add o b v =>
    obtain ⟨ho, hv⟩ := hop
    refine ⟨fun d2 m hm => dirItems_nsAdd_above g o v _ (dirOfSet_cases b) d2 m
      (by omega) (by omega), ?_⟩
    rw [show applyOp g (.add o b v) = nsAdd g o (dirOfSet b) v from rfl,
      nsAdd_nextId]
    exact hk
  | discard o b v =>
    obtain ⟨ho, hv⟩ := hop
    refine ⟨fun d2 m hm => dirItems_nsDiscard_above g o v _ (dirOfSet_cases b) d2 m
      (by omega) (by omega), ?_⟩
    rw [show applyOp g (.discard o b v) = nsDiscard g o (dirOfSet b) v from rfl,
      nsDiscard_nextId]
    exact hk
  | update o b vs =>
    obtain ⟨ho, hvs⟩ := hop
    refine ⟨fun d2 m hm => dirItems_nsUpdate_above o _ (dirOfSet_cases b) vs g d2 m
      (by omega) (fun v hv => by have := hvs v hv; omega), ?_⟩
    rw [show applyOp g (.update o b vs) = nsUpdate g o (dirOfSet b) vs from rfl,
      nsUpdate_nextId]
    exact hk
  | discardMany o b vs =>
    obtain ⟨ho, hvs⟩ := hop
    refine ⟨fun d2 m hm => dirItems_nsDiscardMany_above o _ (dirOfSet_cases b) vs g
      d2 m (by omega) (fun v hv => by have := hvs v hv; omega), ?_⟩
    rw [show applyOp g (.discardMany o b vs) = nsDiscardMany g o (dirOfSet b) vs
      from rfl, nsDiscardMany_nextId]
    exact hk
  | construct dta ps cs =>
    obtain ⟨hps, hcs⟩ := hop
    have hdef : applyOp g (.construct dta ps cs) =
        nsUpdate (nsUpdate
          ⟨g.nextId + 1, g.childEdges, g.parentEdges,
            fun m => if m = g.nextId then dta else g.dataMap m⟩
          g.nextId BACKWARD ps) g.nextId FORWARD cs := rfl
    constructor
    · intro d2 m hm
      rw [hdef,
        dirItems_nsUpdate_above g.nextId FORWARD (Or.inl rfl) cs _ d2 m (by omega)
          (fun v hv => by have := hcs v hv; omega),
        dirItems_nsUpdate_above g.nextId BACKWARD (Or.inr rfl) ps _ d2 m (by omega)
          (fun v hv => by have := hps v hv; omega)]
      ext w
      rw [mem_dirItems, mem_dirItems]
    · rw [hdef, nsUpdate_nextId, nsUpdate_nextId]
      show k ≤ g.nextId + 1
      omega

theorem applyOps_above (k : Nat) :
    ∀ (ops : List Op) (g : Graph), k ≤ g.nextId → (∀ op ∈ ops, OpAbove k op) →
      (∀ d2 m, m < k → (applyOps g ops).dirItems d2 m = g.dirItems d2 m) ∧
      k ≤ (applyOps g ops).nextId := by
  intro ops
  induction ops with
  | nil => intro g hk _; exact ⟨fun _ _ _ => rfl, hk⟩
  | cons op rest ih =>
    intro g hk hops
    have hstep : applyOps g (op :: rest) = applyOps (applyOp g op) rest := rfl
    obtain ⟨h1, h2⟩ := applyOp_above k g op hk (hops op (List.mem_cons_self op rest))
    obtain ⟨h3, h4⟩ := ih (applyOp g op) h2
      (fun op2 hop2 => hops op2 (List.mem_cons_of_mem op hop2))
    rw [hstep]
    refine ⟨fun d2 m hm => ?_, h4⟩
    rw [h3 d2 m hm, h1 d2 m hm]

/-- C2: cloning a node whose forward-reachable structure unfolds to `t` yields a
fresh root that unfolds to the very same `t` (same payloads, same shape), has no
parent links, shares no id with the original (all clone ids are at least the old
allocation counter), leaves every pre-existing node's edge-sets and payloads
unchanged, and any further sequence of edge mutations among clone-side (fresh)
nodes still leaves the original's edge-sets unchanged. -/
theorem claim2_clone_deep_copy (g : Graph) (n : Nat) (t : DTree) (f : Nat)
    (hb : Bounded g) (ht : toTreeFuel f g n = some t) :
    ∃ g2 r, cloneFuel f g n = some (g2, r) ∧
      toTreeFuel f g2 r = some t ∧
      g.nextId ≤ r ∧
      g2.dirItems BACKWARD r = ∅ ∧
      (∀ d m, m < g.nextId → g2.dirItems d m = g.dirItems d m) ∧
      (∀ m, m < g.nextId → g2.dataMap m = g.dataMap m) ∧
      (∀ ops : List Op, (∀ op ∈ ops, OpAbove g.nextId op) →
        ∀ d m, m < g.nextId →
          (applyOps g2 ops).dirItems d m = g.dirItems d m) := by
  obtain ⟨g2, r, h1, hb2, hn2, hr1, hr2, hfz, hdata, hpar, ht2⟩ :=
    (clone_main f).1 g n t hb ht
  refine ⟨g2, r, h1, ht2, hr2, hpar, fun d m hm => hfz d m hm, hdata, ?_⟩
  intro ops hops d m hm
  obtain ⟨h3, _⟩ := applyOps_above g.nextId ops g2 (by omega) hops
  rw [h3 d m hm, hfz d m hm]

/-- Witness for C2 on the chain 0 → 1. -/
theorem claim2_witness :
    Bounded gChain2 ∧
    toTreeFuel 3 gChain2 0 = some (.node 0 [.node 0 []]) ∧
    ∃ g2 r, cloneFuel 3 gChain2 0 = some (g2, r) ∧
      toTreeFuel 3 g2 r = some (.node 0 [.node 0 []]) ∧
      gChain2.nextId ≤ r ∧
      g2.dirItems BACKWARD r = ∅ ∧
      (∀ d m, m < gChain2.nextId → g2.dirItems d m = gChain2.dirItems d m) ∧
      (∀ m, m < gChain2.nextId → g2.dataMap m = gChain2.dataMap m) ∧
      (∀ ops : List Op, (∀ op ∈ ops, OpAbove gChain2.nextId op) →
        ∀ d m, m < gChain2.nextId →
          (applyOps g2 ops).dirItems d m = gChain2.dirItems d m) :=
  ⟨by decide, rfl,
    claim2_clone_deep_copy gChain2 0 (.node 0 [.node 0 []]) 3 (by decide) rfl⟩

/-- C10: `clone_subtree` recurses with no visited set; when the forward
unfolding of the node is finite (`toTreeFuel` succeeds, i.e. the forward
structure is finite and acyclic) cloning terminates with the same fuel, and it
allocates exactly one node per node of the unfolding — one per forward path.
On the diamond (0 → {1,2} → 3) the unfolding has five nodes while only four
nodes are forward-reachable, and the clone indeed allocates five fresh nodes:
the shared sink is copied once per path rather than shared. -/
theorem claim10_clone_unfolds_paths :
    (∀ (g : Graph) (n : Nat) (t : DTree) (f : Nat), Bounded g →
      toTreeFuel f g n = some t →
      ∃ p, cloneFuel f g n = some p ∧ p.1.nextId = g.nextId + t.size) ∧
    toTreeFuel 9 gDiamond 0 =
      some (.node 0 [.node 0 [.node 0 []], .node 0 [.node 0 []]]) ∧
    DTree.size (.node 0 [.node 0 [.node 0 []], .node 0 [.node 0 []]]) = 5 ∧
    (depth_first_list gDiamond FORWARD 0).length = 4 ∧
    (cloneFuel 9 gDiamond 0).map (fun p => p.1.nextId) =
      some (gDiamond.nextId + 5) := by
  refine ⟨?_, rfl, rfl, by decide, by rfl⟩
  intro g n t f hb ht
  obtain ⟨g2, r, h1, _, hn2, _⟩ := (clone_main f).1 g n t hb ht
  exact ⟨(g2, r), h1, hn2⟩

/-- Witness for C10 on the diamond. -/
theorem claim10_witness :
    Bounded gDiamond ∧
    toTreeFuel 9 gDiamond 0 =
      some (.node 0 [.node 0 [.node 0 []], .node 0 [.node 0 []]]) ∧
    ∃ p, cloneFuel 9 gDiamond 0 = some p ∧
      p.1.nextId = gDiamond.nextId +
        DTree.size (.node 0 [.node 0 [.node 0 []], .node 0 [.node 0 []]]) :=
  ⟨by decide, rfl,
    claim10_clone_unfolds_paths.1 gDiamond 0
      (.node 0 [.node 0 [.node 0 []], .node 0 [.node 0 []]]) 9 (by decide) rfl⟩

theorem treeListM_cons_head {F : Nat → Option DTree} {x : Nat} {xs : List Nat}
    {t : DTree} {ts : List DTree} (h : treeListM F (x :: xs) = some (t :: ts)) :
    F x = some t := by
  rw [treeListM] at h
  cases hF : F x with
  | none => rw [hF] at h; simp at h
  | some t1 =>
    rw [hF] at h
    cases hrest : treeListM F xs with
    | none => rw [hrest] at h; simp at h
    | some ts1 =>
      rw [hrest] at h
      simp only [Option.some.injEq, List.cons.injEq] at h
      rw [h.1]

/-- C5: for a heap with no multi-parent nodes, taking the first dictionary that
`to_dict_from_node` emits (the unfolding of the first root, or of the node
itself when it has no roots) and rebuilding it with `from_dict`'s `_build_tree`
produces a root with a brand-new identity (the pre-build allocation counter),
leaves every original node untouched, and the rebuilt tree unfolds to exactly
the same dictionary — same shape and same payload values as the original. -/
theorem claim5_round_trip (g : Graph) (n : Nat) (f : Nat) (dt : DTree)
    (rest : List DTree) (hb : Bounded g)
    (hsingle : ∀ m, (g.dirItems BACKWARD m).card ≤ 1)
    (hdict : to_dict_from_node f g n = some (dt :: rest)) :
    (∃ r0, (r0 ∈ roots_for_node g n ∨ r0 = n) ∧ toTreeFuel f g r0 = some dt) ∧
    (build_tree g dt).2 = g.nextId ∧
    (∀ d m, m < g.nextId → (build_tree g dt).1.dirItems d m = g.dirItems d m) ∧
    (∀ m, m < g.nextId → (build_tree g dt).1.dataMap m = g.dataMap m) ∧
    (∀ f2, dt.depth ≤ f2 →
      toTreeFuel f2 (build_tree g dt).1 (build_tree g dt).2 = some dt) := by
  obtain ⟨hb2, hroot, hnext, hfz, hdata, hseg, htree⟩ := build_tree_main dt g hb
  refine ⟨?_, hroot, hfz, hdata, fun f2 hf2 => by rw [hroot]; exact htree f2 hf2⟩
  unfold to_dict_from_node at hdict
  by_cases hroots : sortedList (roots_for_node g n) = []
  · rw [if_pos hroots] at hdict
    exact ⟨n, Or.inr rfl, treeListM_cons_head hdict⟩
  · rw [if_neg hroots] at hdict
    cases hlist : sortedList (roots_for_node g n) with
    | nil => exact absurd hlist hroots
    | cons r0 rs0 =>
      rw [hlist] at hdict
      refine ⟨r0, Or.inl ?_, treeListM_cons_head hdict⟩
      rw [← mem_sortedList, hlist]
      exact List.mem_cons_self r0 rs0

/-- Witness for C5 on the chain 0 → 1 (a tree with no multi-parent nodes). -/
theorem claim5_witness :
    Bounded gChain2 ∧
    (∀ m, (gChain2.dirItems BACKWARD m).card ≤ 1) ∧
    to_dict_from_node 3 gChain2 1 = some [DTree.node 0 [.node 0 []]] ∧
    ∃ r0, (r0 ∈ roots_for_node gChain2 1 ∨ r0 = 1) ∧
      toTreeFuel 3 gChain2 r0 = some (.node 0 [.node 0 []]) := by
  have hsingle : ∀ m, (gChain2.dirItems BACKWARD m).card ≤ 1 := by
    intro m
    have h1 : gChain2.dirItems BACKWARD m =
        (gChain2.parentEdges.filter (fun e => e.1 = m)).image Prod.snd := by
      unfold Graph.dirItems
      rw [if_pos rfl]
    rw [h1]
    calc ((gChain2.parentEdges.filter (fun e => e.1 = m)).image Prod.snd).card
        ≤ (gChain2.parentEdges.filter (fun e => e.1 = m)).card :=
          Finset.card_image_le
      _ ≤ gChain2.parentEdges.card := Finset.card_filter_le _ _
      _ ≤ 1 := by decide
  exact ⟨by decide, hsingle, rfl,
    (claim5_round_trip gChain2 1 3 (DTree.node 0 [.node 0 []]) [] (by decide)
      hsingle rfl).1⟩
